import Mathlib

/-!
Verification development for the `cc-teams-mcp` repository.

This file shallowly embeds the parts of the code base that the claims talk
about and proves (or refutes) each claim against the embedding:

* `src/claude_teams/common/messaging.py` — the file-backed inbox store
  (`read_inbox`, `append_message`, `send_plain_message`);
* `src/claude_teams/common/tasks.py` — the per-team task store
  (`create_task`, `update_task`, `reset_owner_tasks` and their helpers);
* `src/claude_teams/claude_side/injector.py` — tmux keystroke injection;
* `src/claude_teams/claude_side/spawner.py` — external-agent spawning with
  rollback;
* `src/claude_teams/external_side/server.py` — the `send_message` tool.

Modelling conventions:

* A JSON file on disk becomes a value of an inductive type; a directory of
  files becomes an association list keyed by file stem.  Python `None`
  becomes `Option.none`; a Python `list` becomes `List`; a Python `dict`
  becomes an association list with insert-or-replace-in-place update
  (Python dicts preserve insertion order).
* Python functions that raise exceptions become `Except`-valued functions.
  In the source, `update_task` and the `send_message` tool perform all
  their validation before the first disk write, so an exception leaves the
  store untouched; the embedding reflects this by returning `Except.error`
  without a new store.
* Wall-clock timestamps (`now_iso()`) are passed in as explicit string
  parameters.
* `while` loops that terminate because a visited set grows are embedded
  with an explicit fuel parameter that provably dominates the number of
  iterations.
* Python `str` is a sequence of unicode code points; it is embedded as
  `String`/`List Char`.  Byte counts are UTF-8 byte counts.
-/

/-! ## Inbox messages (`common/models.py`, class `InboxMessage`) -/

/-- `InboxMessage` from `common/models.py`: `{from, text, timestamp, read,
summary?, color?}`. -/
structure Message where
  from_ : String
  text : String
  timestamp : String
  read : Bool
  summary : Option String
  color : Option String
  deriving Repr, DecidableEq

/-- Set the `read` latch of a message; all other fields are untouched. -/
def setRead (m : Message) : Message := { m with read := true }

/-! ## The inbox store (`common/messaging.py`) -/

/-- The filter applied in `read_inbox`: a message is part of the result iff
`unread_only` is false or the message is unread
(`[m for m in all_msgs if not m.read] if unread_only else list(all_msgs)`). -/
def keepMessage (unreadOnly : Bool) (m : Message) : Bool :=
  !unreadOnly || !m.read

/-- `read_inbox` from `common/messaging.py`.  The inbox file is
`Option (List Message)` (`none` = the file does not exist).  Returns the
result list and the inbox contents after the call.  When `markAsRead` is
set, the source mutates exactly the returned message objects (they are
references into the decoded full list, collected by object identity, and
`model_validate` allocates one fresh object per entry, so identity
membership coincides with passing the filter) and persists the full list;
no write happens when the result is empty (`if result:`). -/
def read_inbox (inbox : Option (List Message)) (unreadOnly markAsRead : Bool) :
    List Message × Option (List Message) :=
  match inbox with
  | none => ([], none)
  | some msgs =>
    if markAsRead then
      let result := msgs.filter (keepMessage unreadOnly)
      if result.isEmpty then (result, some msgs)
      else
        (result.map setRead,
         some (msgs.map fun m => if keepMessage unreadOnly m then setRead m else m))
    else
      (msgs.filter (keepMessage unreadOnly), some msgs)

/-! ## The tmux injector (`claude_side/injector.py`) -/

/-- `_TMUX_SEND_KEYS_MAX` from `claude_side/injector.py`.  The source
comment documents it as a byte limit: "Codex TUI treats paste events
>1024 bytes as pasted content ... Keep chunks at or below this limit." -/
def TMUX_SEND_KEYS_MAX : Nat := 1024

/-- `format_message_for_injection` from `claude_side/injector.py`. -/
def format_message_for_injection (m : Message) : String :=
  "[Message from " ++ m.from_ ++ "]: " ++ m.text

/-- The chunk loop of `_send_text_chunked`:
`for offset in range(0, len(text), _TMUX_SEND_KEYS_MAX): chunk = text[offset : offset + _TMUX_SEND_KEYS_MAX]`.
Python slices by *code point* index, so each chunk holds at most 1024
characters.  The fuel argument bounds the number of loop iterations
(at most one per remaining character). -/
def chunksOfAux : Nat → List Char → List (List Char)
  | _, [] => []
  | 0, _ => []
  | fuel + 1, l =>
    l.take TMUX_SEND_KEYS_MAX :: chunksOfAux fuel (l.drop TMUX_SEND_KEYS_MAX)

/-- The chunks sent by `_send_text_chunked` for a given text. -/
def sendTextChunks (text : List Char) : List (List Char) :=
  chunksOfAux (text.length + 1) text

/-- One observable tmux `send-keys` interaction. -/
inductive TmuxEvent where
  /-- `tmux send-keys -t <pane> -l <chunk>`: literal text. -/
  | sendLiteral (paneId : String) (chunk : List Char)
  /-- `tmux send-keys -t <pane> Enter`: the named Enter key. -/
  | sendEnter (paneId : String)
  deriving Repr, DecidableEq

/-- The sequence of tmux interactions performed by a successful
`inject_message(pane_id, msg)`: the rendered text in literal chunks,
then exactly one separate Enter key event. -/
def inject_message_events (paneId : String) (m : Message) : List TmuxEvent :=
  ((sendTextChunks (format_message_for_injection m).data).map
      (TmuxEvent.sendLiteral paneId)) ++ [TmuxEvent.sendEnter paneId]

/-- UTF-8 size in bytes of one code point. -/
def charUtf8Size (c : Char) : Nat :=
  if c.val < 0x80 then 1
  else if c.val < 0x800 then 2
  else if c.val < 0x10000 then 3
  else 4

/-- UTF-8 size in bytes of a sequence of code points. -/
def utf8Len (l : List Char) : Nat := (l.map charUtf8Size).sum

/-! ### The C6 failing input

`InboxMessage(from="a", text="a"*1005 + "é")`.  The rendered text
`"[Message from a]: " + text` has `18 + 1006 = 1024` code points but
`18 + 1005 + 2 = 1025` UTF-8 bytes ('é' encodes in two bytes). -/

/-- The message of the failing input for C6. -/
def c6Msg : Message :=
  { from_ := "a"
    text := String.mk (List.replicate 1005 'a' ++ ['é'])
    timestamp := "2026-01-01T00:00:00.000Z"
    read := false
    summary := none
    color := none }

/-- The rendered injection text of `c6Msg` as a character list. -/
def c6Rendered : List Char :=
  "[Message from a]: ".data ++ (List.replicate 1005 'a' ++ ['é'])

/-! ### Theorems about the inbox store -/

/-- If no element of a list passes a filter, a map that rewrites exactly
the passing elements is the identity. -/
theorem map_ite_eq_self_of_filter_nil {α : Type} (p : α → Bool) (f : α → α)
    (l : List α) (h : l.filter p = []) :
    l.map (fun m => if p m then f m else m) = l := by
  induction l with
  | nil => rfl
  | cons a t ih =>
    rw [List.filter_cons] at h
    by_cases hp : p a
    · simp [hp] at h
    · simp only [List.map_cons, hp, if_neg, Bool.not_eq_true] at *
      simp [hp, ih h]

/-- C1: for every inbox and every `read_inbox` call with
`mark_as_read=true`, the returned sequence is exactly the stored messages
— restricted to the unread ones when `unread_only` — in stored order (the
returned objects carry the freshly set `read=true` latch), and the
persisted inbox equals the pre-call inbox in which exactly the returned
messages' `read` flags are set to `true`: the rewrite is a pointwise map,
so no other message's fields and no message's position change. -/
theorem read_inbox_mark_spec (msgs : List Message) (unreadOnly : Bool) :
    read_inbox (some msgs) unreadOnly true =
      ((msgs.filter (keepMessage unreadOnly)).map setRead,
       some (msgs.map fun m => if keepMessage unreadOnly m then setRead m else m)) := by
  unfold read_inbox
  by_cases h : (msgs.filter (keepMessage unreadOnly)).isEmpty
  · rw [List.isEmpty_iff] at h
    simp only [h, List.map_nil, if_true]
    rw [map_ite_eq_self_of_filter_nil _ _ _ h]
    simp [h]
  · simp [h]

/-! ### Theorems about the injector -/

set_option maxRecDepth 40000 in
/-- C6 (code bug): `_send_text_chunked` slices the rendered text by
*code-point* index (`text[offset : offset + 1024]` on a Python `str`),
while both the claim and the source's own comment on
`_TMUX_SEND_KEYS_MAX` bound chunks in *bytes*.  On the message
`{from: "a", text: "a"*1005 + "é"}` the rendered text has exactly 1024
code points but 1025 UTF-8 bytes, and the code sends it as a single
literal chunk of 1025 bytes followed by the Enter key — contradicting
"each chunk at most 1024 bytes" and "a rendered text of 1025 bytes is
sent as two chunks". -/
theorem inject_chunks_exceed_byte_limit :
    (format_message_for_injection c6Msg).data = c6Rendered ∧
    c6Rendered.length = TMUX_SEND_KEYS_MAX ∧
    utf8Len c6Rendered = 1025 ∧
    1024 < utf8Len c6Rendered ∧
    inject_message_events "%1" c6Msg =
      [TmuxEvent.sendLiteral "%1" c6Rendered, TmuxEvent.sendEnter "%1"] := by
  refine ⟨by decide, by decide, by decide, by decide, ?_⟩
  show ((sendTextChunks (format_message_for_injection c6Msg).data).map
      (TmuxEvent.sendLiteral "%1")) ++ [TmuxEvent.sendEnter "%1"] = _
  have h : sendTextChunks (format_message_for_injection c6Msg).data = [c6Rendered] := by
    decide
  rw [h]
  rfl

/-! ## The task store (`common/tasks.py`)

A task directory `<root>/tasks/<team>/` becomes an association list from
file stem (the task id) to the decoded `TaskFile`.  A team's task files
all live in one directory, so keys are unique in any store produced by
the code.  JSON metadata values (`dict[str, Any]`) are abstracted as
strings; no claim inspects a metadata value's internal structure. -/

/-- `TaskFile` from `common/models.py`. -/
structure TaskFile where
  id : String
  subject : String
  description : String
  active_form : String
  status : String
  blocks : List String
  blocked_by : List String
  owner : Option String
  metadata : Option (List (String × String))
  deriving Repr, DecidableEq

/-- A task directory: file stem ↦ decoded task file. -/
abbrev TaskStore := List (String × TaskFile)

/-- Read `<id>.json` if it exists (`fpath.exists()` + `read_text`). -/
def findTask (store : TaskStore) (id : String) : Option TaskFile :=
  (store.find? (fun p => p.fst == id)).map Prod.snd

/-- `path.write_text(...)`: overwrite the file if present, create it
otherwise. -/
def writeTask (store : TaskStore) (id : String) (t : TaskFile) : TaskStore :=
  match store with
  | [] => [(id, t)]
  | (k, v) :: rest => if k = id then (k, t) :: rest else (k, v) :: writeTask rest id t

/-- `fpath.unlink()`: remove the file.  A directory holds one file per
stem, so filtering the key out is the removal of that single file. -/
def unlinkTask (store : TaskStore) (id : String) : TaskStore :=
  store.filter (fun p => !(p.fst == id))

/-- The `int(f.stem)` succeeds-filter of `_iter_valid_task_files`.  Every
id the store itself writes is a plain digit string; for those Python's
`int()` accepts exactly the non-empty all-digit strings. -/
def validStem (s : String) : Bool :=
  !s.data.isEmpty && s.data.all Char.isDigit

/-- Numeric value of a digit-string stem (`int(f.stem)`). -/
def stemNat (s : String) : Nat :=
  s.data.foldl (fun acc c => acc * 10 + (c.toNat - '0'.toNat)) 0

/-- `_iter_valid_task_files(team_dir, exclude_id)`: the stems of the
directory's `*.json` files whose stem parses as an integer, minus the
excluded id. -/
def iterValidTaskFiles (store : TaskStore) (excludeId : Option String) : List String :=
  (store.map Prod.fst).filter fun k =>
    validStem k && excludeId.all (fun e => k != e)

/-- `_STATUS_ORDER = {"pending": 0, "in_progress": 1, "completed": 2}`,
looked up with `.get` (`none` = key absent). -/
def STATUS_ORDER : String → Option Nat
  | "pending" => some 0
  | "in_progress" => some 1
  | "completed" => some 2
  | _ => none

/-- Decidable equality of `Except` results, for evaluating the store
operations on concrete inputs. -/
instance {ε α : Type} [DecidableEq ε] [DecidableEq α] : DecidableEq (Except ε α) := fun a b =>
  match a, b with
  | .ok x, .ok y =>
    if h : x = y then isTrue (by rw [h]) else isFalse (fun hc => h (by cases hc; rfl))
  | .ok _, .error _ => isFalse (fun hc => by cases hc)
  | .error _, .ok _ => isFalse (fun hc => by cases hc)
  | .error e, .error f =>
    if h : e = f then isTrue (by rw [h]) else isFalse (fun hc => h (by cases hc; rfl))

/-- One constructor per `raise` site reachable from `create_task` /
`update_task` (plus the `KeyError` that `_STATUS_ORDER[task.status]`
raises when the current status has no rank). -/
inductive UErr where
  | fileNotFound (id : String)
  | emptySubject
  | noTeam
  | selfBlock (id : String)
  | selfBlockedBy (id : String)
  | missingRef (b : String)
  | cycleBlock (taskId b : String)
  | cycleBlockedBy (taskId b : String)
  | invalidStatus (s : String)
  | backwardStatus (cur new : String)
  | blockedIncomplete (b status : String)
  | statusKeyError (s : String)
  deriving Repr, DecidableEq

/-- The `pending_edges: dict[str, set[str]]` map.  Python sets are
modelled as lists with membership-guarded insertion; only membership in a
set is ever consumed. -/
abbrev PendMap := List (String × List String)

/-- `pending_edges.setdefault(k, set()).add(v)`. -/
def pendAdd (m : PendMap) (k v : String) : PendMap :=
  match m with
  | [] => [(k, [v])]
  | (k', vs) :: rest =>
    if k' = k then (k', if v ∈ vs then vs else vs ++ [v]) :: rest
    else (k', vs) :: pendAdd rest k v

/-- `pending_edges.get(k, set())`. -/
def pendGet (m : PendMap) (k : String) : List String :=
  ((m.find? (fun p => p.fst == k)).map Prod.snd).getD []

/-- `_validate_edge_refs`: each edge target must not be the task itself
and must exist on disk. -/
def validateEdgeRefs (store : TaskStore) (taskId : String) (selfErr : UErr) :
    List String → Except UErr Unit
  | [] => .ok ()
  | b :: rest =>
    if b = taskId then .error selfErr
    else if (findTask store b).isNone then .error (.missingRef b)
    else validateEdgeRefs store taskId selfErr rest

/-- The `add_blocked_by` half of `_build_pending_edges`, starting from the
map `m1` produced by the `add_blocks` half. -/
def buildPendingEdgesBlockedBy (store : TaskStore) (taskId : String)
    (addBlockedBy : List String) (m1 : PendMap) : Except UErr PendMap :=
  if addBlockedBy.isEmpty then .ok m1
  else
    match validateEdgeRefs store taskId (.selfBlockedBy taskId) addBlockedBy with
    | .error e => .error e
    | .ok _ => .ok (addBlockedBy.foldl (fun m b => pendAdd m taskId b) m1)

/-- `_build_pending_edges`: validate the targets, then record
`pending_edges[b] ∋ task_id` for `b ∈ add_blocks` and
`pending_edges[task_id] ∋ b` for `b ∈ add_blocked_by`.  Empty argument
lists behave like Python `None` (both are falsy). -/
def buildPendingEdges (store : TaskStore) (taskId : String)
    (addBlocks addBlockedBy : List String) : Except UErr PendMap :=
  if addBlocks.isEmpty then
    buildPendingEdgesBlockedBy store taskId addBlockedBy []
  else
    match validateEdgeRefs store taskId (.selfBlock taskId) addBlocks with
    | .error e => .error e
    | .ok _ =>
      buildPendingEdgesBlockedBy store taskId addBlockedBy
        (addBlocks.foldl (fun m b => pendAdd m b taskId) [])

/-- The successors explored from `current` inside `_would_create_cycle`:
the node's on-disk `blocked_by` (when the file exists) plus the pending
edges recorded for it. -/
def bfsNbrs (store : TaskStore) (pend : PendMap) (cur : String) : List String :=
  (match findTask store cur with
   | some t => t.blocked_by
   | none => []) ++ pendGet pend cur

/-- The `while queue:` loop of `_would_create_cycle`, with explicit fuel.
Each iteration pops `current`; returns true on `current == from_id`,
skips already-visited nodes, and otherwise marks `current` visited and
enqueues its not-yet-visited successors. -/
def bfsCycle (store : TaskStore) (pend : PendMap) (fromId : String) :
    Nat → List String → List String → Bool
  | 0, _, _ => false
  | fuel + 1, visited, queue =>
    match queue with
    | [] => false
    | cur :: rest =>
      if cur = fromId then true
      else if cur ∈ visited then bfsCycle store pend fromId fuel visited rest
      else
        bfsCycle store pend fromId fuel (cur :: visited)
          (rest ++ (bfsNbrs store pend cur).filter (fun d => !decide (d ∈ cur :: visited)))

/-- Weight of one node for the loop-iteration bound: one dequeue of the
node itself plus one dequeue per successor it can enqueue. -/
def nodeWeight (store : TaskStore) (pend : PendMap) (u : String) : Nat :=
  1 + (bfsNbrs store pend u).length

/-- Every node the BFS can ever enqueue: the start node plus every
successor target mentioned on disk or in the pending edges. -/
def nodeUniv (store : TaskStore) (pend : PendMap) (toId : String) : Finset String :=
  insert toId
    ((store.map (fun p => p.snd.blocked_by)).flatten ++ (pend.map Prod.snd).flatten).toFinset

/-- Fuel dominating the number of `while` iterations of the BFS: the sum
of all node weights (each node is dequeued at most once unvisited, and
each successor edge enqueues at most one element) plus one for the
initial queue entry. -/
def bfsFuel (store : TaskStore) (pend : PendMap) (toId : String) : Nat :=
  ((nodeUniv store pend toId).sum (nodeWeight store pend)) + 1

/-- `_would_create_cycle(team_dir, from_id, to_id, pending_edges)`: BFS
from `to_id` through on-disk + pending `blocked_by` chains; true iff it
reaches `from_id`. -/
def wouldCreateCycle (store : TaskStore) (fromId toId : String) (pend : PendMap) : Bool :=
  bfsCycle store pend fromId (bfsFuel store pend toId) [] [toId]

/-- The `add_blocks` loop of `_check_no_cycles`. -/
def checkNoCyclesBlocks (store : TaskStore) (taskId : String) (pend : PendMap) :
    List String → Except UErr Unit
  | [] => .ok ()
  | b :: rest =>
    if wouldCreateCycle store b taskId pend then .error (.cycleBlock taskId b)
    else checkNoCyclesBlocks store taskId pend rest

/-- The `add_blocked_by` loop of `_check_no_cycles`. -/
def checkNoCyclesBlockedBy (store : TaskStore) (taskId : String) (pend : PendMap) :
    List String → Except UErr Unit
  | [] => .ok ()
  | b :: rest =>
    if wouldCreateCycle store taskId b pend then .error (.cycleBlockedBy taskId b)
    else checkNoCyclesBlockedBy store taskId pend rest

/-- `_check_no_cycles` (empty lists behave like Python `None`). -/
def checkNoCycles (store : TaskStore) (taskId : String)
    (addBlocks addBlockedBy : List String) (pend : PendMap) : Except UErr Unit :=
  match checkNoCyclesBlocks store taskId pend addBlocks with
  | .error e => .error e
  | .ok _ => checkNoCyclesBlockedBy store taskId pend addBlockedBy

/-- `effective_blocked_by = set(task.blocked_by); .update(add_blocked_by)`.
Modelled as a list with the same membership; the iteration order of a
Python set is unspecified anyway. -/
def effectiveBlockedBy (task : TaskFile) (addBlockedBy : List String) : List String :=
  task.blocked_by ++ addBlockedBy.filter (fun b => !decide (b ∈ task.blocked_by))

/-- The blocker loop of `_validate_status_transition`: an existing blocker
whose status is not `completed` rejects; a blocker whose file does not
exist is skipped. -/
def checkBlockersCompleted (store : TaskStore) :
    List String → Except UErr Unit
  | [] => .ok ()
  | b :: rest =>
    match findTask store b with
    | some blocker =>
      if blocker.status ≠ "completed" then .error (.blockedIncomplete b blocker.status)
      else checkBlockersCompleted store rest
    | none => checkBlockersCompleted store rest

/-- `_validate_status_transition`. -/
def validateStatusTransition (store : TaskStore) (task : TaskFile) (status : String)
    (addBlockedBy : List String) : Except UErr Unit :=
  match STATUS_ORDER task.status with
  | none => .error (.statusKeyError task.status)
  | some curOrder =>
    match STATUS_ORDER status with
    | none => .error (.invalidStatus status)
    | some newOrder =>
      if newOrder < curOrder then .error (.backwardStatus task.status status)
      else
        let eff := effectiveBlockedBy task addBlockedBy
        if (status = "in_progress" ∨ status = "completed") ∧ eff ≠ [] then
          checkBlockersCompleted store eff
        else .ok ()

/-- The status-validation call site inside `update_task`:
`if status is not None and status != "deleted": _validate_status_transition(...)`. -/
def statusGate (store : TaskStore) (task : TaskFile) (status : Option String)
    (addBlockedBy : List String) : Except UErr Unit :=
  match status with
  | some s =>
    if s ≠ "deleted" then validateStatusTransition store task s addBlockedBy
    else .ok ()
  | none => .ok ()

/-- `_apply_scalar_fields`: absent (`None`) arguments leave the field
unchanged; a present owner is stored as-is (it cannot be cleared). -/
def applyScalarFields (task : TaskFile)
    (subject description active_form owner : Option String) : TaskFile :=
  let t1 := match subject with | some s => { task with subject := s } | none => task
  let t2 := match description with | some s => { t1 with description := s } | none => t1
  let t3 := match active_form with | some s => { t2 with active_form := s } | none => t2
  match owner with | some s => { t3 with owner := some s } | none => t3

/-- `_read_or_pending`: prefer the in-memory pending write, else disk. -/
def readOrPending (store pw : TaskStore) (id : String) : Option TaskFile :=
  match findTask pw id with
  | some t => some t
  | none => findTask store id

/-- The `add_blocks` loop of `_apply_edges`: append `b` to the task's
`blocks` unless present, and ensure `task_id` is in `b`'s `blocked_by`,
recording `b` in the pending writes. -/
def applyBlocksList (store : TaskStore) (taskId : String) :
    TaskFile → TaskStore → List String → Except UErr (TaskFile × TaskStore)
  | task, pw, [] => .ok (task, pw)
  | task, pw, b :: rest =>
    let task := if b ∈ task.blocks then task
      else { task with blocks := task.blocks ++ [b] }
    match readOrPending store pw b with
    | none => .error (.fileNotFound b)
    | some other =>
      let other := if taskId ∈ other.blocked_by then other
        else { other with blocked_by := other.blocked_by ++ [taskId] }
      applyBlocksList store taskId task (writeTask pw b other) rest

/-- The `add_blocked_by` loop of `_apply_edges` (mirror image). -/
def applyBlockedByList (store : TaskStore) (taskId : String) :
    TaskFile → TaskStore → List String → Except UErr (TaskFile × TaskStore)
  | task, pw, [] => .ok (task, pw)
  | task, pw, b :: rest =>
    let task := if b ∈ task.blocked_by then task
      else { task with blocked_by := task.blocked_by ++ [b] }
    match readOrPending store pw b with
    | none => .error (.fileNotFound b)
    | some other =>
      let other := if taskId ∈ other.blocks then other
        else { other with blocks := other.blocks ++ [taskId] }
      applyBlockedByList store taskId task (writeTask pw b other) rest

/-- `_apply_edges`. -/
def applyEdges (store : TaskStore) (taskId : String) (task : TaskFile)
    (addBlocks addBlockedBy : List String) (pw : TaskStore) :
    Except UErr (TaskFile × TaskStore) :=
  match applyBlocksList store taskId task pw addBlocks with
  | .error e => .error e
  | .ok (task, pw) => applyBlockedByList store taskId task pw addBlockedBy

/-- `current[k] = v` on a Python dict: replace in place or append. -/
def mdSet (md : List (String × String)) (k v : String) : List (String × String) :=
  match md with
  | [] => [(k, v)]
  | (k', v') :: rest => if k' = k then (k', v) :: rest else (k', v') :: mdSet rest k v

/-- `current.pop(k, None)` on a Python dict (keys are unique). -/
def mdRemove (md : List (String × String)) (k : String) : List (String × String) :=
  md.filter (fun p => !(p.fst == k))

/-- `_apply_metadata`: merge the update into the task's metadata; a key
mapped to `None` is removed; an empty result is stored as `None`. -/
def applyMetadata (task : TaskFile) (md : List (String × Option String)) : TaskFile :=
  let current := task.metadata.getD []
  let current := md.foldl (fun cur kv =>
      match kv.snd with
      | none => mdRemove cur kv.fst
      | some v => mdSet cur kv.fst v) current
  { task with metadata := if current.isEmpty then none else some current }

/-- The loop body of `_clean_task_references` for one other task file
`f`: drop `task_id` from its `blocked_by` (and from `blocks` when
`removeBlocks`), recording the file in the pending writes only when
something changed.  `list.remove` drops the first occurrence, as
`List.erase` does. -/
def cleanTaskUpdate (taskId : String) (removeBlocks : Bool)
    (other : TaskFile) : TaskFile × Bool :=
  let step1 :=
    if taskId ∈ other.blocked_by then
      ({ other with blocked_by := other.blocked_by.erase taskId }, true)
    else (other, false)
  if removeBlocks ∧ taskId ∈ step1.fst.blocks then
    ({ step1.fst with blocks := step1.fst.blocks.erase taskId }, true)
  else step1

def cleanStep (store : TaskStore) (taskId : String) (removeBlocks : Bool)
    (pw : TaskStore) (f : String) : TaskStore :=
  match readOrPending store pw f with
  | none => pw
  | some other =>
    let step2 := cleanTaskUpdate taskId removeBlocks other
    if step2.snd then writeTask pw f step2.fst else pw

/-- `_clean_task_references`: run the loop body over every valid task file
other than `task_id`. -/
def cleanTaskReferences (store : TaskStore) (taskId : String) (pw : TaskStore)
    (removeBlocks : Bool) : TaskStore :=
  (iterValidTaskFiles store (some taskId)).foldl
    (cleanStep store taskId removeBlocks) pw

/-- `_apply_status_and_cleanup`. -/
def applyStatusAndCleanup (store : TaskStore) (taskId : String) (task : TaskFile)
    (status : Option String) (pw : TaskStore) : TaskFile × TaskStore :=
  match status with
  | some s =>
    if s ≠ "deleted" then
      let task := { task with status := s }
      if s = "completed" then (task, cleanTaskReferences store taskId pw false)
      else (task, pw)
    else
      ({ task with status := "deleted" }, cleanTaskReferences store taskId pw true)
  | none => (task, pw)

/-- `_flush_pending_writes`: write every pending task in insertion order. -/
def flushPendingWrites (store pw : TaskStore) : TaskStore :=
  pw.foldl (fun st p => writeTask st p.fst p.snd) store

/-- `_write_task_updates`: on delete, flush then unlink the task file;
otherwise write the task file then flush. -/
def writeTaskUpdates (store : TaskStore) (taskId : String) (task : TaskFile)
    (status : Option String) (pw : TaskStore) : TaskStore :=
  if status = some "deleted" then
    unlinkTask (flushPendingWrites store pw) taskId
  else
    flushPendingWrites (writeTask store taskId task) pw

/-- Exception propagation: run `x`; on an exception re-raise it, otherwise
continue with the result.  This is the sequencing of Python statements
inside `update_task`'s `with file_lock(...)` block. -/
def exBind {α β : Type} (x : Except UErr α) (f : α → Except UErr β) : Except UErr β :=
  match x with
  | .error e => .error e
  | .ok a => f a

theorem exBind_ok {α β : Type} (a : α) (f : α → Except UErr β) :
    exBind (.ok a) f = f a := rfl

theorem exBind_err {α β : Type} (e : UErr) (f : α → Except UErr β) :
    exBind (.error e) f = .error e := rfl

/-- Inversion of an `exBind` error. -/
theorem exBind_err_split {α β : Type} {x : Except UErr α} {f : α → Except UErr β}
    {e : UErr} (h : exBind x f = .error e) :
    x = .error e ∨ ∃ a, x = .ok a ∧ f a = .error e := by
  cases x with
  | error e1 =>
    rw [exBind_err] at h
    cases h
    exact Or.inl rfl
  | ok a =>
    rw [exBind_ok] at h
    exact Or.inr ⟨a, rfl, h⟩

/-- Inversion of an `exBind` success. -/
theorem exBind_ok_split {α β : Type} {x : Except UErr α} {f : α → Except UErr β}
    {b : β} (h : exBind x f = .ok b) :
    ∃ a, x = .ok a ∧ f a = .ok b := by
  cases x with
  | error e1 => cases h
  | ok a =>
    rw [exBind_ok] at h
    exact ⟨a, rfl, h⟩

/-- The metadata step of `update_task`:
`if metadata is not None: _apply_metadata(task, metadata)`. -/
def applyMetadataOpt (task : TaskFile)
    (metadata : Option (List (String × Option String))) : TaskFile :=
  match metadata with
  | some md => applyMetadata task md
  | none => task

/-- The post-validation tail of `update_task`: apply scalar fields, edges,
metadata, status + cleanup, then commit
(`_apply_scalar_fields` … `_write_task_updates`). -/
def updApply (store : TaskStore) (taskId : String) (task : TaskFile)
    (status owner subject description active_form : Option String)
    (addBlocks addBlockedBy : List String)
    (metadata : Option (List (String × Option String))) :
    Except UErr (TaskStore × TaskFile) :=
  let task1 := applyScalarFields task subject description active_form owner
  exBind (applyEdges store taskId task1 addBlocks addBlockedBy []) fun tp =>
    let task3 := applyMetadataOpt tp.fst metadata
    let tp2 := applyStatusAndCleanup store taskId task3 status tp.snd
    .ok (writeTaskUpdates store taskId tp2.fst status tp2.snd, tp2.fst)

/-- `update_task`, staged exactly as the source body: read the task file,
build + validate pending edges, check cycles, gate the status, then apply
and commit.  Every disk write of the source happens inside
`_write_task_updates`, after all validation; an exception raised earlier
therefore leaves every task file byte-identical, which the embedding
reflects by returning `Except.error` without a store.  Empty edge lists
behave like Python `None`; returns the new store and the updated task. -/
def update_task (store : TaskStore) (taskId : String)
    (status owner subject description active_form : Option String)
    (addBlocks addBlockedBy : List String)
    (metadata : Option (List (String × Option String))) :
    Except UErr (TaskStore × TaskFile) :=
  match findTask store taskId with
  | none => .error (.fileNotFound taskId)
  | some task =>
    exBind (buildPendingEdges store taskId addBlocks addBlockedBy) fun pend =>
    exBind (checkNoCycles store taskId addBlocks addBlockedBy pend) fun _ =>
    exBind (statusGate store task status addBlockedBy) fun _ =>
    updApply store taskId task status owner subject description active_form
      addBlocks addBlockedBy metadata

/-- `next_task_id`: `max(existing numeric stems) + 1`, or `1`. -/
def next_task_id (store : TaskStore) : String :=
  let ids := (iterValidTaskFiles store none).map stemNat
  if ids.isEmpty then "1" else toString (ids.foldl Nat.max 0 + 1)

/-- `create_task`.  `teamExists` is modelled from the spec: the
`team_exists` check of `common/teams.py` (a module not present in the
sources) tests whether the team's config file exists. -/
def create_task (store : TaskStore) (teamExists : Bool)
    (subject description active_form : String)
    (metadata : Option (List (String × String))) :
    Except UErr (TaskStore × TaskFile) :=
  if subject.data.all Char.isWhitespace then .error .emptySubject
  else if ¬teamExists then .error .noTeam
  else
    let taskId := next_task_id store
    let task : TaskFile :=
      { id := taskId, subject := subject, description := description,
        active_form := active_form, status := "pending",
        blocks := [], blocked_by := [], owner := none, metadata := metadata }
    .ok (writeTask store taskId task, task)

/-- The per-task mutation of `reset_owner_tasks`: if not completed, force
`pending`; clear the owner. -/
def resetTaskOwner (task : TaskFile) : TaskFile :=
  let task := if task.status ≠ "completed" then { task with status := "pending" } else task
  { task with owner := none }

/-- The loop body of `reset_owner_tasks` for one valid task file `f`:
read it from disk and, when owned by `agent_name`, rewrite it with the
owner cleared (and the status forced to `pending` unless completed). -/
def resetStep (agentName : String) (st : TaskStore) (f : String) : TaskStore :=
  match findTask st f with
  | none => st
  | some task =>
    if task.owner = some agentName then writeTask st f (resetTaskOwner task)
    else st

/-- `reset_owner_tasks`: run the loop body over every valid task file. -/
def reset_owner_tasks (store : TaskStore) (agentName : String) : TaskStore :=
  (iterValidTaskFiles store none).foldl (resetStep agentName) store

/-! ### Helper lemmas about the status gate -/

/-- If some id in the list refers to an existing, not-completed task, the
blocker loop rejects. -/
theorem checkBlockers_err_of_bad {store : TaskStore} {l : List String}
    {b : String} {t : TaskFile} (hb : b ∈ l) (hf : findTask store b = some t)
    (hs : t.status ≠ "completed") :
    ∃ e, checkBlockersCompleted store l = .error e := by
  induction l with
  | nil => cases hb
  | cons a rest ih =>
    rcases List.mem_cons.mp hb with rfl | hbr
    · refine ⟨UErr.blockedIncomplete b t.status, ?_⟩
      rw [checkBlockersCompleted, hf]
      simp [hs]
    · rw [checkBlockersCompleted]
      cases ha : findTask store a with
      | none => exact ih hbr
      | some blocker =>
        by_cases hc : blocker.status = "completed"
        · simpa [hc] using ih hbr
        · exact ⟨UErr.blockedIncomplete a blocker.status, by simp [hc]⟩

/-- If every existing id in the list is completed, the blocker loop
accepts (missing files are skipped). -/
theorem checkBlockers_ok_of_all {store : TaskStore} {l : List String}
    (h : ∀ b ∈ l, ∀ t, findTask store b = some t → t.status = "completed") :
    checkBlockersCompleted store l = .ok () := by
  induction l with
  | nil => rfl
  | cons a rest ih =>
    rw [checkBlockersCompleted]
    cases ha : findTask store a with
    | none => exact ih fun b hb t ht => h b (List.mem_cons_of_mem _ hb) t ht
    | some blocker =>
      have hc : blocker.status = "completed" := h a (List.mem_cons_self _ _) _ ha
      simp only [hc, ne_eq, not_true_eq_false, if_false, ite_false]
      exact ih fun b hb t ht => h b (List.mem_cons_of_mem _ hb) t ht

/-- A ranked status is not `"deleted"`. -/
theorem rank_ne_deleted {s : String} {n : Nat} (h : STATUS_ORDER s = some n) :
    s ≠ "deleted" := by
  intro hs
  rw [hs] at h
  cases h

/-- The status gate accepts when the rank does not decrease and every
existing effective blocker is completed. -/
theorem validateStatusTransition_ok {store : TaskStore} {t : TaskFile}
    {s : String} {addBlockedBy : List String} {cs ns : Nat}
    (hcs : STATUS_ORDER t.status = some cs) (hns : STATUS_ORDER s = some ns)
    (hle : cs ≤ ns)
    (hall : ∀ b ∈ effectiveBlockedBy t addBlockedBy, ∀ t',
        findTask store b = some t' → t'.status = "completed") :
    validateStatusTransition store t s addBlockedBy = .ok () := by
  simp only [validateStatusTransition, hcs, hns]
  rw [if_neg (Nat.not_lt.mpr hle)]
  split
  · exact checkBlockers_ok_of_all hall
  · rfl

/-- The status gate rejects when the requested status is `in_progress` or
`completed` and some effective blocker exists on disk without being
completed. -/
theorem validateStatusTransition_err {store : TaskStore} {t : TaskFile}
    {s : String} {addBlockedBy : List String}
    (hs : s = "in_progress" ∨ s = "completed")
    (hbad : ∃ b t', b ∈ effectiveBlockedBy t addBlockedBy ∧
        findTask store b = some t' ∧ t'.status ≠ "completed") :
    ∃ e, validateStatusTransition store t s addBlockedBy = .error e := by
  obtain ⟨b, t', hb, hf, hnc⟩ := hbad
  cases hcs : STATUS_ORDER t.status with
  | none =>
    exact ⟨UErr.statusKeyError t.status, by simp only [validateStatusTransition, hcs]⟩
  | some cs =>
    have hns : ∃ ns, STATUS_ORDER s = some ns := by
      rcases hs with rfl | rfl
      · exact ⟨1, rfl⟩
      · exact ⟨2, rfl⟩
    obtain ⟨ns, hns⟩ := hns
    by_cases hlt : ns < cs
    · exact ⟨_, by simp only [validateStatusTransition, hcs, hns]; rw [if_pos hlt]⟩
    · have hne : effectiveBlockedBy t addBlockedBy ≠ [] := by
        intro hnil
        rw [hnil] at hb
        cases hb
      obtain ⟨e, he⟩ := checkBlockers_err_of_bad hb hf hnc
      refine ⟨e, ?_⟩
      simp only [validateStatusTransition, hcs, hns]
      rw [if_neg hlt, if_pos ⟨hs, hne⟩]
      exact he

/-! ### Error-shape lemmas for the update pipeline -/

/-- Errors of `_validate_edge_refs` are the self-reference error or a
missing-reference error. -/
theorem validateEdgeRefs_err_shape {store : TaskStore} {taskId : String}
    {selfErr : UErr} {ids : List String} {e : UErr}
    (h : validateEdgeRefs store taskId selfErr ids = .error e) :
    e = selfErr ∨ ∃ b, e = .missingRef b := by
  induction ids with
  | nil => cases h
  | cons a rest ih =>
    rw [validateEdgeRefs] at h
    by_cases ha : a = taskId
    · rw [if_pos ha] at h
      cases h
      exact Or.inl rfl
    · rw [if_neg ha] at h
      by_cases hm : (findTask store a).isNone
      · rw [if_pos hm] at h
        cases h
        exact Or.inr ⟨a, rfl⟩
      · rw [if_neg hm] at h
        exact ih h

/-- Errors of `_build_pending_edges` are self-reference or missing-reference
errors. -/
theorem buildPendingEdgesBlockedBy_err_shape {store : TaskStore} {taskId : String}
    {addBlockedBy : List String} {m1 : PendMap} {e : UErr}
    (h : buildPendingEdgesBlockedBy store taskId addBlockedBy m1 = .error e) :
    e = .selfBlockedBy taskId ∨ ∃ b, e = .missingRef b := by
  rw [buildPendingEdgesBlockedBy] at h
  split at h
  · cases h
  · split at h
    · rename_i hv
      cases h
      exact validateEdgeRefs_err_shape hv
    · cases h

theorem buildPendingEdges_err_shape {store : TaskStore} {taskId : String}
    {addBlocks addBlockedBy : List String} {e : UErr}
    (h : buildPendingEdges store taskId addBlocks addBlockedBy = .error e) :
    e = .selfBlock taskId ∨ e = .selfBlockedBy taskId ∨ ∃ b, e = .missingRef b := by
  rw [buildPendingEdges] at h
  split at h
  · rcases buildPendingEdgesBlockedBy_err_shape h with h1 | h1
    · exact Or.inr (Or.inl h1)
    · exact Or.inr (Or.inr h1)
  · split at h
    · rename_i hv
      cases h
      rcases validateEdgeRefs_err_shape hv with h1 | h1
      · exact Or.inl h1
      · exact Or.inr (Or.inr h1)
    · rcases buildPendingEdgesBlockedBy_err_shape h with h1 | h1
      · exact Or.inr (Or.inl h1)
      · exact Or.inr (Or.inr h1)

/-- Errors of the `add_blocks` cycle loop are cycle errors. -/
theorem checkNoCyclesBlocks_err_shape {store : TaskStore} {taskId : String}
    {pend : PendMap} {ids : List String} {e : UErr}
    (h : checkNoCyclesBlocks store taskId pend ids = .error e) :
    ∃ b, e = .cycleBlock taskId b := by
  induction ids with
  | nil => cases h
  | cons a rest ih =>
    rw [checkNoCyclesBlocks] at h
    split at h
    · cases h
      exact ⟨a, rfl⟩
    · exact ih h

/-- Errors of the `add_blocked_by` cycle loop are cycle errors. -/
theorem checkNoCyclesBlockedBy_err_shape {store : TaskStore} {taskId : String}
    {pend : PendMap} {ids : List String} {e : UErr}
    (h : checkNoCyclesBlockedBy store taskId pend ids = .error e) :
    ∃ b, e = .cycleBlockedBy taskId b := by
  induction ids with
  | nil => cases h
  | cons a rest ih =>
    rw [checkNoCyclesBlockedBy] at h
    split at h
    · cases h
      exact ⟨a, rfl⟩
    · exact ih h

/-- Errors of `_check_no_cycles` are cycle errors. -/
theorem checkNoCycles_err_shape {store : TaskStore} {taskId : String}
    {addBlocks addBlockedBy : List String} {pend : PendMap} {e : UErr}
    (h : checkNoCycles store taskId addBlocks addBlockedBy pend = .error e) :
    (∃ b, e = .cycleBlock taskId b) ∨ ∃ b, e = .cycleBlockedBy taskId b := by
  rw [checkNoCycles] at h
  split at h
  · rename_i hc
    cases h
    exact Or.inl (checkNoCyclesBlocks_err_shape hc)
  · exact Or.inr (checkNoCyclesBlockedBy_err_shape h)

/-- Errors of the `add_blocks` apply loop are missing-file errors. -/
theorem applyBlocksList_err_shape {store : TaskStore} {taskId : String}
    {task : TaskFile} {pw : TaskStore} {ids : List String} {e : UErr}
    (h : applyBlocksList store taskId task pw ids = .error e) :
    ∃ b, e = .fileNotFound b := by
  induction ids generalizing task pw with
  | nil => cases h
  | cons a rest ih =>
    rw [applyBlocksList] at h
    split at h
    · cases h
      exact ⟨a, rfl⟩
    · exact ih h

/-- Errors of the `add_blocked_by` apply loop are missing-file errors. -/
theorem applyBlockedByList_err_shape {store : TaskStore} {taskId : String}
    {task : TaskFile} {pw : TaskStore} {ids : List String} {e : UErr}
    (h : applyBlockedByList store taskId task pw ids = .error e) :
    ∃ b, e = .fileNotFound b := by
  induction ids generalizing task pw with
  | nil => cases h
  | cons a rest ih =>
    rw [applyBlockedByList] at h
    split at h
    · cases h
      exact ⟨a, rfl⟩
    · exact ih h

/-- Errors of `_apply_edges` are missing-file errors. -/
theorem applyEdges_err_shape {store : TaskStore} {taskId : String}
    {task : TaskFile} {addBlocks addBlockedBy : List String} {pw : TaskStore}
    {e : UErr}
    (h : applyEdges store taskId task addBlocks addBlockedBy pw = .error e) :
    ∃ b, e = .fileNotFound b := by
  rw [applyEdges] at h
  split at h
  · rename_i hc
    cases h
    exact applyBlocksList_err_shape hc
  · exact applyBlockedByList_err_shape h

/-- For `status="deleted"` the status gate is skipped
(`if status is not None and status != "deleted"`). -/
theorem statusGate_deleted {store : TaskStore} {t : TaskFile}
    {addBlockedBy : List String} :
    statusGate store t (some "deleted") addBlockedBy = .ok () := by
  simp [statusGate]

/-- If the status gate rejects, the whole `update_task` call raises — no
matter which validation error fires first — and hence performs no write. -/
theorem update_err_of_gateErr {store : TaskStore} {taskId : String}
    {t : TaskFile}
    {status owner subject description active_form : Option String}
    {addBlocks addBlockedBy : List String}
    {metadata : Option (List (String × Option String))}
    (ht : findTask store taskId = some t)
    (hg : ∃ e, statusGate store t status addBlockedBy = .error e) :
    ∃ e, update_task store taskId status owner subject description active_form
        addBlocks addBlockedBy metadata = .error e := by
  obtain ⟨eg, heg⟩ := hg
  simp only [update_task, ht]
  cases hbp : buildPendingEdges store taskId addBlocks addBlockedBy with
  | error e => exact ⟨e, rfl⟩
  | ok pend =>
    rw [exBind_ok]
    cases hcc : checkNoCycles store taskId addBlocks addBlockedBy pend with
    | error e => exact ⟨e, rfl⟩
    | ok u =>
      rw [exBind_ok, heg, exBind_err]
      exact ⟨eg, rfl⟩

/-- With no added `blocked_by`, the effective blocker set is the stored
one. -/
theorem effectiveBlockedBy_nil (t : TaskFile) :
    effectiveBlockedBy t [] = t.blocked_by := by
  simp [effectiveBlockedBy]

/-- An `in_progress`/`completed` status is not `"deleted"`. -/
theorem active_ne_deleted {s : String}
    (hs : s = "in_progress" ∨ s = "completed") : s ≠ "deleted" := by
  rcases hs with rfl | rfl <;> decide

/-- The status gate on a non-`deleted` status is the transition
validator. -/
theorem statusGate_some {store : TaskStore} {t : TaskFile} {s : String}
    {addBlockedBy : List String} (hsd : s ≠ "deleted") :
    statusGate store t (some s) addBlockedBy =
      validateStatusTransition store t s addBlockedBy := by
  simp [statusGate, hsd]

/-- C4: for every `update_task` call requesting `in_progress` or
`completed`, the call raises (performing no write) whenever some id in the
effective `blocked_by` set — stored `blocked_by` ∪ `add_blocked_by` —
refers to an existing task that is not completed; and when every existing
effective blocker is completed (and the rank does not decrease), the
dependency gate `_validate_status_transition` accepts. -/
theorem update_task_dependency_gate
    (store : TaskStore) (taskId : String) (t : TaskFile) (s : String)
    (owner subject description active_form : Option String)
    (addBlocks addBlockedBy : List String)
    (metadata : Option (List (String × Option String)))
    (ht : findTask store taskId = some t)
    (hs : s = "in_progress" ∨ s = "completed") :
    ((∃ b t', b ∈ effectiveBlockedBy t addBlockedBy ∧
        findTask store b = some t' ∧ t'.status ≠ "completed") →
      ∃ e, update_task store taskId (some s) owner subject description
          active_form addBlocks addBlockedBy metadata = .error e)
    ∧ (∀ cs ns, STATUS_ORDER t.status = some cs → STATUS_ORDER s = some ns →
        cs ≤ ns →
        (∀ b ∈ effectiveBlockedBy t addBlockedBy, ∀ t',
          findTask store b = some t' → t'.status = "completed") →
        validateStatusTransition store t s addBlockedBy = .ok ()) := by
  constructor
  · intro hbad
    apply update_err_of_gateErr ht
    rw [statusGate_some (active_ne_deleted hs)]
    exact validateStatusTransition_err hs hbad
  · intro cs ns hcs hns hle hall
    exact validateStatusTransition_ok hcs hns hle hall

/-- C4 witness: task `2` is blocked by the pending task `1`; requesting
`in_progress` on `2` fails. -/
def c4Task1 : TaskFile :=
  { id := "1", subject := "s", description := "", active_form := "",
    status := "pending", blocks := ["2"], blocked_by := [], owner := none,
    metadata := none }

def c4Task2 : TaskFile :=
  { id := "2", subject := "s", description := "", active_form := "",
    status := "pending", blocks := [], blocked_by := ["1"], owner := none,
    metadata := none }

def c4Store : TaskStore := [("1", c4Task1), ("2", c4Task2)]

theorem update_task_dependency_gate_witness :
    ∃ e, update_task c4Store "2" (some "in_progress") none none none none
        [] [] none = .error e :=
  (update_task_dependency_gate c4Store "2" c4Task2 "in_progress"
      none none none none [] [] none (by decide) (Or.inl rfl)).1
    ⟨"1", c4Task1, by decide, by decide, by decide⟩

/-- Errors of the apply-and-commit tail are missing-file errors. -/
theorem updApply_err_shape {store : TaskStore} {taskId : String}
    {task : TaskFile} {status owner subject description active_form : Option String}
    {addBlocks addBlockedBy : List String}
    {metadata : Option (List (String × Option String))} {e : UErr}
    (h : updApply store taskId task status owner subject description
        active_form addBlocks addBlockedBy metadata = .error e) :
    ∃ b, e = .fileNotFound b := by
  rw [updApply] at h
  rcases exBind_err_split h with h1 | ⟨a, _, h2⟩
  · exact applyEdges_err_shape h1
  · cases h2

/-- The first component of `_apply_status_and_cleanup` for a non-deleted
status is the task with exactly that status. -/
theorem applyStatusAndCleanup_fst_some {store : TaskStore} {taskId : String}
    {task : TaskFile} {s : String} {pw : TaskStore} (hsd : s ≠ "deleted") :
    (applyStatusAndCleanup store taskId task (some s) pw).fst =
      { task with status := s } := by
  rw [applyStatusAndCleanup, if_pos hsd]
  split <;> rfl

/-- The first component of `_apply_status_and_cleanup` for status
`"deleted"`. -/
theorem applyStatusAndCleanup_fst_deleted {store : TaskStore} {taskId : String}
    {task : TaskFile} {pw : TaskStore} :
    (applyStatusAndCleanup store taskId task (some "deleted") pw).fst =
      { task with status := "deleted" } := by
  rw [applyStatusAndCleanup]
  rw [if_neg (by decide : ¬ ("deleted" ≠ "deleted"))]

/-- The first component of `_apply_status_and_cleanup` with no requested
status is the unchanged task. -/
theorem applyStatusAndCleanup_fst_none {store : TaskStore} {taskId : String}
    {task : TaskFile} {pw : TaskStore} :
    (applyStatusAndCleanup store taskId task none pw).fst = task := rfl

/-- The errors raised by `_validate_status_transition` (the rank /
dependency gate), as a recognizer.  `update_task` reaches that gate only
for a status other than `None` / `"deleted"`. -/
def UErr.fromStatusGate : UErr → Bool
  | .invalidStatus _ => true
  | .backwardStatus _ _ => true
  | .blockedIncomplete _ _ => true
  | .statusKeyError _ => true
  | _ => false

/-- C5: the status rank `{pending:0, in_progress:1, completed:2}` is
non-decreasing across `update_task` calls.  (i) A requested ranked status
whose rank is below the current one is rejected, with no write.  (ii) A
request for `"deleted"` is never rejected by the rank rule (nor by any
other part of the status gate, which is skipped entirely): every error of
such a call comes from outside `_validate_status_transition`.  (iii) On
success with a ranked requested status, the stored status equals the
request and its rank is at least the pre-call rank. -/
theorem update_task_status_monotone
    (store : TaskStore) (taskId : String) (t : TaskFile) (s : String)
    (owner subject description active_form : Option String)
    (addBlocks addBlockedBy : List String)
    (metadata : Option (List (String × Option String)))
    (ht : findTask store taskId = some t) :
    (∀ cs ns, STATUS_ORDER t.status = some cs → STATUS_ORDER s = some ns →
      ns < cs →
      ∃ e, update_task store taskId (some s) owner subject description
          active_form addBlocks addBlockedBy metadata = .error e)
    ∧ (∀ e, update_task store taskId (some "deleted") owner subject description
          active_form addBlocks addBlockedBy metadata = .error e →
        e.fromStatusGate = false)
    ∧ (∀ st' t' ns, update_task store taskId (some s) owner subject description
          active_form addBlocks addBlockedBy metadata = .ok (st', t') →
        STATUS_ORDER s = some ns →
        t'.status = s ∧ ∀ cs, STATUS_ORDER t.status = some cs → cs ≤ ns) := by
  refine ⟨?_, ?_, ?_⟩
  · intro cs ns hcs hns hlt
    apply update_err_of_gateErr ht
    rw [statusGate_some (rank_ne_deleted hns)]
    refine ⟨.backwardStatus t.status s, ?_⟩
    simp only [validateStatusTransition, hcs, hns]
    rw [if_pos hlt]
  · intro e h
    rw [update_task, ht] at h
    rcases exBind_err_split h with h1 | ⟨pend, _, h2⟩
    · rcases buildPendingEdges_err_shape h1 with rfl | rfl | ⟨b, rfl⟩ <;> rfl
    · rcases exBind_err_split h2 with h3 | ⟨u, _, h4⟩
      · rcases checkNoCycles_err_shape h3 with ⟨b, rfl⟩ | ⟨b, rfl⟩ <;> rfl
      · rw [statusGate_deleted, exBind_ok] at h4
        obtain ⟨b, rfl⟩ := updApply_err_shape h4
        rfl
  · intro st' t' ns h hns
    have hsd : s ≠ "deleted" := rank_ne_deleted hns
    rw [update_task, ht] at h
    obtain ⟨pend, hbp, h2⟩ := exBind_ok_split h
    obtain ⟨u, hcc, h3⟩ := exBind_ok_split h2
    obtain ⟨v, hsg, h4⟩ := exBind_ok_split h3
    constructor
    · rw [updApply] at h4
      obtain ⟨tp, hae, h5⟩ := exBind_ok_split h4
      injection h5 with h6
      have h7 := congrArg Prod.snd h6
      simp only at h7
      rw [← h7, applyStatusAndCleanup_fst_some hsd]
    · intro cs hcs
      rw [statusGate_some hsd] at hsg
      simp only [validateStatusTransition, hcs, hns] at hsg
      by_cases hlt : ns < cs
      · rw [if_pos hlt] at hsg
        cases hsg
      · exact Nat.not_lt.mp hlt

/-- C5 witness: a completed task rejects a request to go back to
`pending`. -/
def c5Task : TaskFile :=
  { id := "1", subject := "s", description := "", active_form := "",
    status := "completed", blocks := [], blocked_by := [], owner := none,
    metadata := none }

def c5Store : TaskStore := [("1", c5Task)]

theorem update_task_status_monotone_witness :
    ∃ e, update_task c5Store "1" (some "pending") none none none none [] []
        none = .error e :=
  (update_task_status_monotone c5Store "1" c5Task "pending"
      none none none none [] [] none (by decide)).1 2 0 rfl rfl (by decide)

/-- C9: a blocker id whose task file does not exist never blocks the
dependency gate.  For every `update_task` call that requests
`in_progress`/`completed` with no other mutation in the same call, the
call succeeds as soon as every blocker that exists on disk is completed —
ids of missing task files are skipped and treated as satisfied. -/
theorem update_task_skips_missing_blockers
    (store : TaskStore) (taskId : String) (t : TaskFile) (s : String)
    (cs ns : Nat)
    (ht : findTask store taskId = some t)
    (hs : s = "in_progress" ∨ s = "completed")
    (hcs : STATUS_ORDER t.status = some cs) (hns : STATUS_ORDER s = some ns)
    (hle : cs ≤ ns)
    (hall : ∀ b ∈ t.blocked_by, ∀ t', findTask store b = some t' →
        t'.status = "completed") :
    ∃ r, update_task store taskId (some s) none none none none [] [] none
      = .ok r := by
  simp only [update_task, ht]
  rw [show buildPendingEdges store taskId [] [] = Except.ok [] from rfl,
    exBind_ok]
  rw [show checkNoCycles store taskId [] [] [] = Except.ok () from rfl,
    exBind_ok]
  rw [statusGate_some (active_ne_deleted hs)]
  rw [validateStatusTransition_ok hcs hns hle
    (by rw [effectiveBlockedBy_nil]; exact hall), exBind_ok]
  rw [updApply]
  rw [show applyEdges store taskId
      (applyScalarFields t none none none none) [] [] [] =
      Except.ok (applyScalarFields t none none none none, []) from rfl,
    exBind_ok]
  exact ⟨_, rfl⟩

/-- C9 witness: task `1` is blocked by the missing id `99`; the transition
to `in_progress` succeeds. -/
def c9Task : TaskFile :=
  { id := "1", subject := "s", description := "", active_form := "",
    status := "pending", blocks := [], blocked_by := ["99"], owner := none,
    metadata := none }

def c9Store : TaskStore := [("1", c9Task)]

theorem update_task_skips_missing_blockers_witness :
    ∃ r, update_task c9Store "1" (some "in_progress") none none none none
        [] [] none = .ok r :=
  update_task_skips_missing_blockers c9Store "1" c9Task "in_progress" 0 1
    (by decide) (Or.inl rfl) rfl rfl (by decide)
    (by
      intro b hb t' hf
      have hb9 : b = "99" := by simpa [c9Task] using hb
      rw [hb9, (by decide : findTask c9Store "99" = (none : Option TaskFile))]
        at hf
      cases hf)

/-! ### Association-list lemmas for the task directory -/

/-- The file stems of a directory/pending-write map. -/
def storeKeys (store : TaskStore) : List String := store.map Prod.fst

theorem findTask_nil (a : String) : findTask [] a = none := rfl

theorem findTask_cons (k : String) (v : TaskFile) (rest : TaskStore)
    (a : String) :
    findTask ((k, v) :: rest) a = if k = a then some v else findTask rest a := by
  rw [findTask, List.find?]
  by_cases h : k = a
  · have hb : (k == a) = true := by simp [h]
    rw [hb, if_pos h]
    rfl
  · have hb : (k == a) = false := by simp [h]
    rw [hb, if_neg h]
    rfl

theorem findTask_writeTask_self (store : TaskStore) (k : String) (t : TaskFile) :
    findTask (writeTask store k t) k = some t := by
  induction store with
  | nil => simp [writeTask, findTask_cons]
  | cons p rest ih =>
    obtain ⟨k', v⟩ := p
    rw [writeTask]
    by_cases hk : k' = k
    · subst hk
      simp [findTask_cons]
    · rw [if_neg hk, findTask_cons, if_neg hk]
      exact ih

theorem findTask_writeTask_other (store : TaskStore) (k a : String)
    (t : TaskFile) (hak : a ≠ k) :
    findTask (writeTask store k t) a = findTask store a := by
  have hka : k ≠ a := fun h => hak h.symm
  induction store with
  | nil => simp [writeTask, findTask_cons, findTask_nil, hka]
  | cons p rest ih =>
    obtain ⟨k', v⟩ := p
    rw [writeTask]
    by_cases hk : k' = k
    · subst hk
      rw [if_pos rfl, findTask_cons, findTask_cons, if_neg hka, if_neg hka]
    · rw [if_neg hk, findTask_cons, findTask_cons]
      by_cases hka' : k' = a
      · rw [if_pos hka', if_pos hka']
      · rw [if_neg hka', if_neg hka']
        exact ih

theorem storeKeys_writeTask (store : TaskStore) (k : String) (t : TaskFile)
    (a : String) (ha : a ∈ storeKeys (writeTask store k t)) :
    a ∈ storeKeys store ∨ a = k := by
  induction store with
  | nil =>
    simp [writeTask, storeKeys] at ha
    exact Or.inr ha
  | cons p rest ih =>
    obtain ⟨k', v⟩ := p
    rw [writeTask] at ha
    by_cases hk : k' = k
    · subst hk
      rw [if_pos rfl] at ha
      simp only [storeKeys, List.map_cons, List.mem_cons] at ha ⊢
      rcases ha with h | h
      · exact Or.inl (Or.inl h)
      · exact Or.inl (Or.inr h)
    · rw [if_neg hk] at ha
      simp only [storeKeys, List.map_cons, List.mem_cons] at ha ⊢
      rcases ha with h | h
      · exact Or.inl (Or.inl h)
      · rcases ih h with h1 | h1
        · exact Or.inl (Or.inr h1)
        · exact Or.inr h1

theorem findTask_flush_of_not_key (store pw : TaskStore) (a : String)
    (ha : a ∉ storeKeys pw) :
    findTask (flushPendingWrites store pw) a = findTask store a := by
  induction pw generalizing store with
  | nil => rfl
  | cons p rest ih =>
    obtain ⟨k, t⟩ := p
    have hak : a ≠ k := by
      intro h
      exact ha (by simp [storeKeys, h])
    have harest : a ∉ storeKeys rest := by
      intro h
      refine ha ?_
      simp only [storeKeys, List.map_cons, List.mem_cons]
      exact Or.inr h
    rw [show flushPendingWrites store ((k, t) :: rest) =
      flushPendingWrites (writeTask store k t) rest from rfl]
    rw [ih (writeTask store k t) harest]
    exact findTask_writeTask_other store k a t hak

/-! ### Frame lemmas for the update pipeline -/

/-- The stored owner after `_apply_scalar_fields`: the argument when
present, else the previous value — never cleared. -/
def ownerAfter (owner old : Option String) : Option String :=
  match owner with
  | some o => some o
  | none => old

theorem applyScalarFields_owner (task : TaskFile)
    (subject description active_form owner : Option String) :
    (applyScalarFields task subject description active_form owner).owner =
      ownerAfter owner task.owner := by
  rw [applyScalarFields.eq_def]
  cases subject <;> cases description <;> cases active_form <;>
    cases owner <;> rfl

theorem applyScalarFields_status (task : TaskFile)
    (subject description active_form owner : Option String) :
    (applyScalarFields task subject description active_form owner).status =
      task.status := by
  rw [applyScalarFields.eq_def]
  cases subject <;> cases description <;> cases active_form <;>
    cases owner <;> rfl

/-- The `add_blocks` loop leaves owner, status and `blocked_by` of the
task unchanged, and only records pending writes for the processed ids. -/
theorem applyBlocksList_ok_frame {store : TaskStore} {taskId : String}
    {task : TaskFile} {pw : TaskStore} {ids : List String}
    {task' : TaskFile} {pw' : TaskStore}
    (h : applyBlocksList store taskId task pw ids = .ok (task', pw')) :
    task'.owner = task.owner ∧ task'.status = task.status ∧
      task'.blocked_by = task.blocked_by ∧
      (∀ a, a ∈ storeKeys pw' → a ∈ storeKeys pw ∨ a ∈ ids) := by
  induction ids generalizing task pw with
  | nil =>
    cases h
    exact ⟨rfl, rfl, rfl, fun a ha => Or.inl ha⟩
  | cons b rest ih =>
    simp only [applyBlocksList] at h
    cases hro : readOrPending store pw b with
    | none =>
      simp only [hro] at h
      cases h
    | some other =>
      simp only [hro] at h
      obtain ⟨h1, h2, h3, h4⟩ := ih h
      have htask : ∀ u : TaskFile,
          (if b ∈ task.blocks then task
           else { task with blocks := task.blocks ++ [b] }) = u →
          u.owner = task.owner ∧ u.status = task.status ∧
            u.blocked_by = task.blocked_by := by
        intro u hu
        split at hu <;> (cases hu; exact ⟨rfl, rfl, rfl⟩)
      obtain ⟨ho, hs, hb⟩ := htask _ rfl
      refine ⟨h1.trans ho, h2.trans hs, h3.trans hb, ?_⟩
      intro a ha
      rcases h4 a ha with h5 | h5
      · rcases storeKeys_writeTask _ _ _ _ h5 with h6 | h6
        · exact Or.inl h6
        · exact Or.inr (by simp [h6])
      · exact Or.inr (List.mem_cons_of_mem _ h5)

/-- The `add_blocked_by` loop leaves owner, status and `blocks` of the
task unchanged, and only records pending writes for the processed ids. -/
theorem applyBlockedByList_ok_frame {store : TaskStore} {taskId : String}
    {task : TaskFile} {pw : TaskStore} {ids : List String}
    {task' : TaskFile} {pw' : TaskStore}
    (h : applyBlockedByList store taskId task pw ids = .ok (task', pw')) :
    task'.owner = task.owner ∧ task'.status = task.status ∧
      task'.blocks = task.blocks ∧
      (∀ a, a ∈ storeKeys pw' → a ∈ storeKeys pw ∨ a ∈ ids) := by
  induction ids generalizing task pw with
  | nil =>
    cases h
    exact ⟨rfl, rfl, rfl, fun a ha => Or.inl ha⟩
  | cons b rest ih =>
    simp only [applyBlockedByList] at h
    cases hro : readOrPending store pw b with
    | none =>
      simp only [hro] at h
      cases h
    | some other =>
      simp only [hro] at h
      obtain ⟨h1, h2, h3, h4⟩ := ih h
      have htask : ∀ u : TaskFile,
          (if b ∈ task.blocked_by then task
           else { task with blocked_by := task.blocked_by ++ [b] }) = u →
          u.owner = task.owner ∧ u.status = task.status ∧
            u.blocks = task.blocks := by
        intro u hu
        split at hu <;> (cases hu; exact ⟨rfl, rfl, rfl⟩)
      obtain ⟨ho, hs, hb⟩ := htask _ rfl
      refine ⟨h1.trans ho, h2.trans hs, h3.trans hb, ?_⟩
      intro a ha
      rcases h4 a ha with h5 | h5
      · rcases storeKeys_writeTask _ _ _ _ h5 with h6 | h6
        · exact Or.inl h6
        · exact Or.inr (by simp [h6])
      · exact Or.inr (List.mem_cons_of_mem _ h5)

/-- `_apply_edges` leaves owner and status unchanged and only records
pending writes for the requested edge targets. -/
theorem applyEdges_ok_frame {store : TaskStore} {taskId : String}
    {task : TaskFile} {addBlocks addBlockedBy : List String}
    {pw0 : TaskStore} {task' : TaskFile} {pw' : TaskStore}
    (h : applyEdges store taskId task addBlocks addBlockedBy pw0 = .ok (task', pw')) :
    task'.owner = task.owner ∧ task'.status = task.status ∧
      (∀ a, a ∈ storeKeys pw' →
        a ∈ storeKeys pw0 ∨ a ∈ addBlocks ∨ a ∈ addBlockedBy) := by
  rw [applyEdges] at h
  cases hab : applyBlocksList store taskId task pw0 addBlocks with
  | error e =>
    rw [hab] at h
    cases h
  | ok acc =>
    rw [hab] at h
    obtain ⟨acc1, acc2⟩ := acc
    obtain ⟨h1, h2, _, h4⟩ := applyBlocksList_ok_frame hab
    obtain ⟨h5, h6, _, h8⟩ := applyBlockedByList_ok_frame h
    refine ⟨h5.trans h1, h6.trans h2, ?_⟩
    intro a ha
    rcases h8 a ha with h9 | h9
    · rcases h4 a h9 with h10 | h10
      · exact Or.inl h10
      · exact Or.inr (Or.inl h10)
    · exact Or.inr (Or.inr h9)

theorem applyMetadata_owner (task : TaskFile)
    (md : List (String × Option String)) :
    (applyMetadata task md).owner = task.owner := rfl

theorem applyMetadata_status (task : TaskFile)
    (md : List (String × Option String)) :
    (applyMetadata task md).status = task.status := rfl

theorem applyStatusAndCleanup_fst_owner (store : TaskStore) (taskId : String)
    (task : TaskFile) (status : Option String) (pw : TaskStore) :
    ((applyStatusAndCleanup store taskId task status pw).fst).owner =
      task.owner := by
  cases status with
  | none => rfl
  | some s =>
    rw [applyStatusAndCleanup]
    split
    · split <;> rfl
    · rfl

/-- One cleanup step only writes the file it processed. -/
theorem cleanStep_keys {store : TaskStore} {taskId : String} {rb : Bool}
    {pw : TaskStore} {f a : String}
    (ha : a ∈ storeKeys (cleanStep store taskId rb pw f)) :
    a ∈ storeKeys pw ∨ a = f := by
  rw [cleanStep] at ha
  cases hro : readOrPending store pw f with
  | none =>
    rw [hro] at ha
    exact Or.inl ha
  | some other =>
    simp only [hro] at ha
    split at ha
    · exact storeKeys_writeTask _ _ _ _ ha
    · exact Or.inl ha

/-- The cleanup fold only writes files from its iteration list. -/
theorem cleanFold_keys {store : TaskStore} {taskId : String} {rb : Bool} :
    ∀ (fs : List String) (pw : TaskStore) (a : String),
      a ∈ storeKeys (fs.foldl (cleanStep store taskId rb) pw) →
      a ∈ storeKeys pw ∨ a ∈ fs := by
  intro fs
  induction fs with
  | nil => exact fun pw a ha => Or.inl ha
  | cons f rest ih =>
    intro pw a ha
    rw [List.foldl_cons] at ha
    rcases ih _ a ha with h1 | h1
    · rcases cleanStep_keys h1 with h2 | h2
      · exact Or.inl h2
      · exact Or.inr (by simp [h2])
    · exact Or.inr (List.mem_cons_of_mem _ h1)

/-- Files iterated by `_iter_task_files(team_dir, exclude_id)` never
include the excluded id. -/
theorem iterValid_ne_exclude {store : TaskStore} {taskId f : String}
    (hf : f ∈ iterValidTaskFiles store (some taskId)) : f ≠ taskId := by
  rw [iterValidTaskFiles] at hf
  have := List.of_mem_filter hf
  simp only [Option.all_some, Bool.and_eq_true, bne_iff_ne] at this
  exact this.2

/-- Files iterated by `_iter_valid_task_files` are stems of the
directory. -/
theorem iterValid_subset_keys {store : TaskStore} {ex : Option String}
    {f : String} (hf : f ∈ iterValidTaskFiles store ex) :
    f ∈ storeKeys store :=
  List.mem_of_mem_filter hf

/-- `_apply_status_and_cleanup` only adds pending writes for other valid
task files. -/
theorem applyStatusAndCleanup_snd_keys {store : TaskStore} {taskId : String}
    {task : TaskFile} {status : Option String} {pw : TaskStore} {a : String}
    (ha : a ∈ storeKeys (applyStatusAndCleanup store taskId task status pw).snd) :
    a ∈ storeKeys pw ∨ a ∈ iterValidTaskFiles store (some taskId) := by
  cases status with
  | none => exact Or.inl ha
  | some s =>
    rw [applyStatusAndCleanup] at ha
    split at ha
    · split at ha
      · exact cleanFold_keys _ _ _ ha
      · exact Or.inl ha
    · exact cleanFold_keys _ _ _ ha

/-- Validated edge targets are never the task itself. -/
theorem validateEdgeRefs_ok_ne {store : TaskStore} {taskId : String}
    {selfErr : UErr} {ids : List String} {u : Unit}
    (h : validateEdgeRefs store taskId selfErr ids = .ok u) :
    ∀ b ∈ ids, b ≠ taskId := by
  induction ids with
  | nil => intro b hb; cases hb
  | cons a rest ih =>
    rw [validateEdgeRefs] at h
    by_cases ha : a = taskId
    · rw [if_pos ha] at h
      cases h
    · rw [if_neg ha] at h
      by_cases hm : (findTask store a).isNone
      · rw [if_pos hm] at h
        cases h
      · rw [if_neg hm] at h
        intro b hb
        rcases List.mem_cons.mp hb with rfl | hbr
        · exact ha
        · exact ih h b hbr

/-- A successful `_build_pending_edges` guarantees no requested edge is a
self-edge. -/
theorem buildPendingEdges_ok_ne {store : TaskStore} {taskId : String}
    {addBlocks addBlockedBy : List String} {pend : PendMap}
    (h : buildPendingEdges store taskId addBlocks addBlockedBy = .ok pend) :
    (∀ b ∈ addBlocks, b ≠ taskId) ∧ (∀ b ∈ addBlockedBy, b ≠ taskId) := by
  rw [buildPendingEdges] at h
  have hbb : ∀ (m1 : PendMap),
      buildPendingEdgesBlockedBy store taskId addBlockedBy m1 = .ok pend →
      ∀ b ∈ addBlockedBy, b ≠ taskId := by
    intro m1 h1
    rw [buildPendingEdgesBlockedBy] at h1
    split at h1
    · intro b hb
      rename_i hemp
      rw [List.isEmpty_iff.mp hemp] at hb
      cases hb
    · split at h1
      · cases h1
      · rename_i u hv
        exact validateEdgeRefs_ok_ne hv
  split at h
  · rename_i hemp
    refine ⟨?_, hbb _ h⟩
    intro b hb
    rw [List.isEmpty_iff.mp hemp] at hb
    cases hb
  · split at h
    · cases h
    · rename_i u hv
      exact ⟨validateEdgeRefs_ok_ne hv, hbb _ h⟩

/-! ### Characterization of `reset_owner_tasks` -/

/-- A reset step for a file other than the head leaves the head entry in
place and acts on the tail. -/
theorem resetStep_cons_comm (agent k : String) (t : TaskFile) (st : TaskStore)
    (f : String) (hfk : f ≠ k) :
    resetStep agent ((k, t) :: st) f = (k, t) :: resetStep agent st f := by
  rw [resetStep, resetStep, findTask_cons, if_neg (fun h => hfk h.symm)]
  cases hf : findTask st f with
  | none => rfl
  | some task =>
    show (if task.owner = some agent then
        writeTask ((k, t) :: st) f (resetTaskOwner task) else (k, t) :: st) =
      (k, t) :: (if task.owner = some agent then
        writeTask st f (resetTaskOwner task) else st)
    by_cases ho : task.owner = some agent
    · rw [if_pos ho, if_pos ho, writeTask, if_neg (fun h => hfk h.symm)]
    · simp only [if_neg ho]

/-- Folding reset steps over files absent from the head leaves the head
entry in place. -/
theorem resetFold_cons_comm (agent k : String) (t : TaskFile) :
    ∀ (fs : List String) (st : TaskStore), (∀ f ∈ fs, f ≠ k) →
      fs.foldl (resetStep agent) ((k, t) :: st) =
        (k, t) :: fs.foldl (resetStep agent) st := by
  intro fs
  induction fs with
  | nil => intro st _; rfl
  | cons f rest ih =>
    intro st h
    rw [List.foldl_cons, List.foldl_cons,
      resetStep_cons_comm agent k t st f (h f (by simp))]
    exact ih _ fun g hg => h g (List.mem_cons_of_mem _ hg)

theorem iterValid_cons_none (k : String) (t : TaskFile) (rest : TaskStore) :
    iterValidTaskFiles ((k, t) :: rest) none =
      if validStem k then k :: iterValidTaskFiles rest none
      else iterValidTaskFiles rest none := by
  rw [iterValidTaskFiles, iterValidTaskFiles]
  simp only [List.map_cons, List.filter_cons, Option.all_none, Bool.and_true]

/-- The per-entry effect of `reset_owner_tasks`: a valid task file owned
by the agent gets the owner cleared and a non-completed status forced to
`pending`; every other file is untouched. -/
def resetEntry (agent : String) (p : String × TaskFile) : String × TaskFile :=
  if validStem p.fst = true ∧ p.snd.owner = some agent then
    (p.fst, resetTaskOwner p.snd)
  else p

/-- `reset_owner_tasks` acts pointwise as `resetEntry` on a directory with
unique stems. -/
theorem reset_owner_tasks_map (agent : String) :
    ∀ (store : TaskStore), (storeKeys store).Nodup →
      reset_owner_tasks store agent = store.map (resetEntry agent) := by
  intro store
  induction store with
  | nil => intro _; rfl
  | cons p rest ih =>
    intro hnd
    obtain ⟨k, t⟩ := p
    have hnd2 : (k :: storeKeys rest).Nodup := hnd
    have hk : k ∉ storeKeys rest := (List.nodup_cons.mp hnd2).1
    have hrest : (storeKeys rest).Nodup := (List.nodup_cons.mp hnd2).2
    have hne : ∀ f ∈ iterValidTaskFiles rest none, f ≠ k :=
      fun f hf hk' => hk (hk' ▸ iterValid_subset_keys hf)
    rw [reset_owner_tasks, iterValid_cons_none]
    by_cases hv : validStem k
    · rw [if_pos hv, List.foldl_cons]
      have hstep : resetStep agent ((k, t) :: rest) k =
          (resetEntry agent (k, t)) :: rest := by
        rw [resetStep, findTask_cons, if_pos rfl]
        show (if t.owner = some agent then
            writeTask ((k, t) :: rest) k (resetTaskOwner t)
          else (k, t) :: rest) = _
        by_cases ho : t.owner = some agent
        · rw [if_pos ho, writeTask, if_pos rfl, resetEntry, if_pos ⟨hv, ho⟩]
        · rw [if_neg ho, resetEntry,
            if_neg (by intro hc; exact ho hc.2)]
      rw [hstep, List.map_cons]
      have hfst : (resetEntry agent (k, t)).fst = k := by
        rw [resetEntry]
        split <;> rfl
      have heta : resetEntry agent (k, t) =
          (k, (resetEntry agent (k, t)).snd) := Prod.ext hfst rfl
      rw [heta,
        resetFold_cons_comm agent k ((resetEntry agent (k, t)).snd) _ rest hne]
      rw [show (iterValidTaskFiles rest none).foldl (resetStep agent) rest =
        reset_owner_tasks rest agent from rfl]
      rw [ih hrest]
    · rw [if_neg hv, resetFold_cons_comm agent k t _ rest hne]
      rw [show (iterValidTaskFiles rest none).foldl (resetStep agent) rest =
        reset_owner_tasks rest agent from rfl]
      rw [ih hrest, List.map_cons, resetEntry,
        if_neg (by intro hc; exact hv hc.1)]

/-- C10: `update_task` can set an owner but never clear one.  For every
successful call: an absent `owner` argument leaves the stored owner
unchanged, a present one stores exactly that (non-null) owner, and a null
stored owner after the call implies it was already null before with no
owner argument given; for a non-deleting call the task file on disk holds
the returned task.  Only `reset_owner_tasks` clears owners: on a directory
with unique stems it acts pointwise, clearing the owner of every task
owned by the named agent and forcing its status to `pending` unless
completed, leaving every other task file untouched. -/
theorem update_task_owner_latch
    (store : TaskStore) (taskId : String) (t : TaskFile)
    (status owner subject description active_form : Option String)
    (addBlocks addBlockedBy : List String)
    (metadata : Option (List (String × Option String)))
    (st' : TaskStore) (t' : TaskFile)
    (ht : findTask store taskId = some t)
    (h : update_task store taskId status owner subject description
        active_form addBlocks addBlockedBy metadata = .ok (st', t')) :
    ((owner = none → t'.owner = t.owner) ∧
     (∀ o, owner = some o → t'.owner = some o) ∧
     (t'.owner = none → t.owner = none ∧ owner = none) ∧
     (status ≠ some "deleted" → findTask st' taskId = some t'))
    ∧ ∀ (store2 : TaskStore) (agent : String), (storeKeys store2).Nodup →
        reset_owner_tasks store2 agent = store2.map (resetEntry agent) := by
  refine ⟨?_, fun store2 agent hnd => reset_owner_tasks_map agent store2 hnd⟩
  rw [update_task, ht] at h
  obtain ⟨pend, hbp, h2⟩ := exBind_ok_split h
  obtain ⟨u, hcc, h3⟩ := exBind_ok_split h2
  obtain ⟨v, hsg, h4⟩ := exBind_ok_split h3
  rw [updApply] at h4
  obtain ⟨tp, hae, h5⟩ := exBind_ok_split h4
  injection h5 with h6
  have hst' := congrArg Prod.fst h6
  have ht' := congrArg Prod.snd h6
  simp only at hst' ht'
  subst hst' ht'
  obtain ⟨hto, hts, htk⟩ := applyEdges_ok_frame hae
  have howner := applyStatusAndCleanup_fst_owner store taskId
    (applyMetadataOpt tp.fst metadata) status tp.snd
  have hto2 : tp.fst.owner = ownerAfter owner t.owner :=
    hto.trans (applyScalarFields_owner t subject description active_form owner)
  have howner2 : (applyMetadataOpt tp.fst metadata).owner =
      ownerAfter owner t.owner := by
    cases metadata with
    | some md => exact hto2
    | none => exact hto2
  have hcomb := howner.trans howner2
  refine ⟨?_, ?_, ?_, ?_⟩
  · intro hno
    rw [hcomb, hno]
    rfl
  · intro o ho
    rw [hcomb, ho]
    rfl
  · intro hnone
    rw [hcomb] at hnone
    cases ho : owner with
    | some o =>
      rw [ho] at hnone
      cases hnone
    | none =>
      rw [ho] at hnone
      exact ⟨hnone, rfl⟩
  · intro hdel
    have hnotkey : taskId ∉ storeKeys
        (applyStatusAndCleanup store taskId
          (applyMetadataOpt tp.fst metadata) status tp.snd).snd := by
      intro hmem
      rcases applyStatusAndCleanup_snd_keys hmem with hA | hB
      · rcases htk taskId hA with hc | hc | hc
        · cases hc
        · exact (buildPendingEdges_ok_ne hbp).1 taskId hc rfl
        · exact (buildPendingEdges_ok_ne hbp).2 taskId hc rfl
      · exact iterValid_ne_exclude hB rfl
    rw [writeTaskUpdates, if_neg hdel,
      findTask_flush_of_not_key _ _ _ hnotkey, findTask_writeTask_self]

/-- C10 witness: setting the owner of task `1` to `"w"` stores exactly
that owner; the reset characterization holds for every store. -/
def c10Task : TaskFile :=
  { id := "1", subject := "s", description := "", active_form := "",
    status := "pending", blocks := [], blocked_by := [], owner := none,
    metadata := none }

def c10Store : TaskStore := [("1", c10Task)]

def c10TaskAfter : TaskFile := { c10Task with owner := some "w" }

theorem update_task_owner_latch_witness :
    ((some "w" = (none : Option String) →
        c10TaskAfter.owner = c10Task.owner) ∧
     (∀ o, (some "w" : Option String) = some o → c10TaskAfter.owner = some o) ∧
     (c10TaskAfter.owner = none →
        c10Task.owner = none ∧ (some "w" : Option String) = none) ∧
     ((none : Option String) ≠ some "deleted" →
        findTask [("1", c10TaskAfter)] "1" = some c10TaskAfter)) ∧
    ∀ (store2 : TaskStore) (agent : String), (storeKeys store2).Nodup →
        reset_owner_tasks store2 agent = store2.map (resetEntry agent) :=
  update_task_owner_latch c10Store "1" c10Task none (some "w") none none none
    [] [] none [("1", c10TaskAfter)] c10TaskAfter (by decide) (by decide)

/-! ## The external-side `send_message` tool (`external_side/server.py`)

Inboxes of one team: agent name ↦ decoded inbox file.  The team config is
`Option (List String)`, the member names of `teams.read_config` — modelled
from the spec: `common/teams.py` is not among the sources; per the spec a
team config holds a members list with unique names, and `read_config`
raises `FileNotFoundError` when the team does not exist (`none`). -/

abbrev Inboxes := List (String × List Message)

/-- `ensure_inbox` + `append_message`: create the inbox file with an empty
sequence when absent, then decode, append, re-encode. -/
def appendInbox (inboxes : Inboxes) (agent : String) (msg : Message) :
    Inboxes :=
  match inboxes with
  | [] => [(agent, [msg])]
  | (a, msgs) :: rest =>
    if a = agent then (a, msgs ++ [msg]) :: rest
    else (a, msgs) :: appendInbox rest agent msg

/-- The stored sequence of one agent's inbox (empty when absent). -/
def getInbox (inboxes : Inboxes) (agent : String) : List Message :=
  ((inboxes.find? (fun p => p.fst == agent)).map Prod.snd).getD []

/-- `_content_metadata`: append the sender signature and reply reminder. -/
def contentMetadata (content sender : String) : String :=
  content ++ "\n\n" ++ "<system_reminder>" ++
    "This message was sent from " ++ sender ++
    ". Use your send_message tool to respond." ++ "</system_reminder>"

/-- The `InboxMessage` built by `send_plain_message` for the enriched
content (color is `None` on this path). -/
def sentMessage (sender content summary now : String) : Message :=
  { from_ := sender, text := contentMetadata content sender,
    timestamp := now, read := false, summary := some summary, color := none }

/-- The CC summary `"[CC {sender}->{recipient}] {summary}"`. -/
def ccSummary (sender recipient summary : String) : String :=
  "[CC " ++ sender ++ "->" ++ recipient ++ "] " ++ summary

/-- One constructor per `ToolError` raise site of `send_message`. -/
inductive MsgErr where
  | emptyContent
  | emptySummary
  | emptySender
  | emptyRecipient
  | selfSend
  | teamNotFound
  | senderNotMember
  | recipientNotMember
  deriving Repr, DecidableEq

/-- The tail of `send_message` after the config was read: membership
checks, the delivery append, and the conditional team-lead CC. -/
def sendWithNames (inboxes : Inboxes)
    (sender recipient content summary now1 now2 : String)
    (names : List String) : Except MsgErr Inboxes :=
  if sender ∉ names then .error .senderNotMember
  else if recipient ∉ names then .error .recipientNotMember
  else
    let ib1 := appendInbox inboxes recipient
      (sentMessage sender content summary now1)
    if sender ≠ "team-lead" ∧ recipient ≠ "team-lead" then
      .ok (appendInbox ib1 "team-lead"
        (sentMessage sender content (ccSummary sender recipient summary)
          now2))
    else .ok ib1

/-- `send_message` from `external_side/server.py`.  All validation happens
before the first inbox write, so a `ToolError` leaves every inbox file
untouched; `now1`/`now2` are the two `now_iso()` readings of the two
`send_plain_message` calls. -/
def send_message (members : Option (List String)) (inboxes : Inboxes)
    (sender recipient content summary now1 now2 : String) :
    Except MsgErr Inboxes :=
  if content = "" then .error .emptyContent
  else if summary = "" then .error .emptySummary
  else if sender = "" then .error .emptySender
  else if recipient = "" then .error .emptyRecipient
  else if sender = recipient then .error .selfSend
  else
    match members with
    | none => .error .teamNotFound
    | some names =>
      sendWithNames inboxes sender recipient content summary now1 now2 names

/-- The validation conjunction of `send_message`: team exists, sender and
recipient are distinct members, content and summary (and the names) are
non-empty. -/
def sendValid (members : Option (List String))
    (sender recipient content summary : String) : Prop :=
  content ≠ "" ∧ summary ≠ "" ∧ sender ≠ "" ∧ recipient ≠ "" ∧
    sender ≠ recipient ∧
    ∃ names, members = some names ∧ sender ∈ names ∧ recipient ∈ names

theorem getInbox_appendInbox_self (inboxes : Inboxes) (agent : String)
    (msg : Message) :
    getInbox (appendInbox inboxes agent msg) agent =
      getInbox inboxes agent ++ [msg] := by
  induction inboxes with
  | nil => simp [appendInbox, getInbox]
  | cons p rest ih =>
    obtain ⟨a, msgs⟩ := p
    rw [appendInbox]
    by_cases ha : a = agent
    · subst ha
      simp [getInbox, List.find?]
    · rw [if_neg ha]
      have hb : (a == agent) = false := by simp [ha]
      simp only [getInbox, List.find?, hb] at ih ⊢
      exact ih

theorem getInbox_appendInbox_other (inboxes : Inboxes) (agent b : String)
    (msg : Message) (hb : b ≠ agent) :
    getInbox (appendInbox inboxes agent msg) b = getInbox inboxes b := by
  induction inboxes with
  | nil =>
    have h : (agent == b) = false := by simp [Ne.symm hb]
    simp [appendInbox, getInbox, List.find?, h]
  | cons p rest ih =>
    obtain ⟨a, msgs⟩ := p
    rw [appendInbox]
    by_cases ha : a = agent
    · subst ha
      have h : (a == b) = false := by simp [Ne.symm hb]
      simp [getInbox, List.find?, h]
    · rw [if_neg ha]
      by_cases hab : a = b
      · subst hab
        simp [getInbox, List.find?]
      · have h : (a == b) = false := by simp [hab]
        simp only [getInbox, List.find?, h] at ih ⊢
        exact ih

/-- The delivery behaviour of `send_message` once validation passed. -/
theorem sendWithNames_spec (inboxes : Inboxes)
    (sender recipient content summary now1 now2 : String)
    (names : List String) (hsr : sender ≠ recipient)
    (hsm : sender ∈ names) (hrm : recipient ∈ names) :
    ∃ ib', sendWithNames inboxes sender recipient content summary now1 now2
        names = .ok ib' ∧
      getInbox ib' recipient = getInbox inboxes recipient ++
        [sentMessage sender content summary now1] ∧
      (∀ a, a ≠ recipient → a ≠ "team-lead" →
        getInbox ib' a = getInbox inboxes a) ∧
      ((sender ≠ "team-lead" ∧ recipient ≠ "team-lead") →
        getInbox ib' "team-lead" = getInbox inboxes "team-lead" ++
          [sentMessage sender content (ccSummary sender recipient summary)
            now2]) ∧
      (sender = "team-lead" →
        getInbox ib' "team-lead" = getInbox inboxes "team-lead") := by
  rw [sendWithNames, if_neg (not_not_intro hsm), if_neg (not_not_intro hrm)]
  by_cases hcc : sender ≠ "team-lead" ∧ recipient ≠ "team-lead"
  · rw [if_pos hcc]
    refine ⟨_, rfl, ?_, ?_, ?_, ?_⟩
    · rw [getInbox_appendInbox_other _ _ _ _ hcc.2,
        getInbox_appendInbox_self]
    · intro a har hal
      rw [getInbox_appendInbox_other _ _ _ _ hal,
        getInbox_appendInbox_other _ _ _ _ har]
    · intro _
      rw [getInbox_appendInbox_self,
        getInbox_appendInbox_other _ _ _ _ (fun h => hcc.2 h.symm)]
    · intro hlead
      exact absurd hlead hcc.1
  · rw [if_neg hcc]
    refine ⟨_, rfl, getInbox_appendInbox_self _ _ _, ?_, ?_, ?_⟩
    · intro a har _
      rw [getInbox_appendInbox_other _ _ _ _ har]
    · intro h
      exact absurd h hcc
    · intro hlead
      have hrl : "team-lead" ≠ recipient := fun h => hsr (hlead.trans h)
      rw [getInbox_appendInbox_other _ _ _ _ hrl]

/-- C7: a `send_message` call that passes validation (team exists, sender
and recipient are distinct members, content, summary and the names
non-empty) appends exactly one enriched message to the recipient's inbox,
appends a CC copy with summary `"[CC sender->recipient] summary"` to the
team-lead's inbox iff neither endpoint is the team-lead, and touches no
other inbox; a call that fails validation raises a tool error having
written no inbox. -/
theorem send_message_tool_spec (members : Option (List String))
    (inboxes : Inboxes)
    (sender recipient content summary now1 now2 : String) :
    (sendValid members sender recipient content summary →
      ∃ ib', send_message members inboxes sender recipient content summary
          now1 now2 = .ok ib' ∧
        getInbox ib' recipient = getInbox inboxes recipient ++
          [sentMessage sender content summary now1] ∧
        (∀ a, a ≠ recipient → a ≠ "team-lead" →
          getInbox ib' a = getInbox inboxes a) ∧
        ((sender ≠ "team-lead" ∧ recipient ≠ "team-lead") →
          getInbox ib' "team-lead" = getInbox inboxes "team-lead" ++
            [sentMessage sender content
              (ccSummary sender recipient summary) now2]) ∧
        (sender = "team-lead" →
          getInbox ib' "team-lead" = getInbox inboxes "team-lead"))
    ∧ (¬ sendValid members sender recipient content summary →
        ∃ e, send_message members inboxes sender recipient content summary
            now1 now2 = .error e) := by
  constructor
  · rintro ⟨hc, hs, hse, hr, hsr, names, rfl, hsm, hrm⟩
    rw [send_message, if_neg hc, if_neg hs, if_neg hse, if_neg hr,
      if_neg hsr]
    exact sendWithNames_spec inboxes sender recipient content summary
      now1 now2 names hsr hsm hrm
  · intro hnv
    rw [send_message.eq_def]
    by_cases hc : content = ""
    · rw [if_pos hc]
      exact ⟨.emptyContent, rfl⟩
    rw [if_neg hc]
    by_cases hs : summary = ""
    · rw [if_pos hs]
      exact ⟨.emptySummary, rfl⟩
    rw [if_neg hs]
    by_cases hse : sender = ""
    · rw [if_pos hse]
      exact ⟨.emptySender, rfl⟩
    rw [if_neg hse]
    by_cases hr : recipient = ""
    · rw [if_pos hr]
      exact ⟨.emptyRecipient, rfl⟩
    rw [if_neg hr]
    by_cases hsr : sender = recipient
    · rw [if_pos hsr]
      exact ⟨.selfSend, rfl⟩
    rw [if_neg hsr]
    cases members with
    | none => exact ⟨.teamNotFound, rfl⟩
    | some names =>
      by_cases hsm : sender ∈ names
      · by_cases hrm : recipient ∈ names
        · exact absurd ⟨hc, hs, hse, hr, hsr, names, rfl, hsm, hrm⟩ hnv
        · refine ⟨.recipientNotMember, ?_⟩
          show sendWithNames inboxes sender recipient content summary
            now1 now2 names = _
          rw [sendWithNames, if_neg (not_not_intro hsm), if_pos hrm]
      · refine ⟨.senderNotMember, ?_⟩
        show sendWithNames inboxes sender recipient content summary
          now1 now2 names = _
        rw [sendWithNames, if_pos hsm]

/-- C7 witness: alice messages bob on a three-member team; the message is
delivered and a CC copy reaches the team-lead. -/
theorem send_message_tool_spec_witness :
    ∃ ib', send_message (some ["team-lead", "alice", "bob"]) []
        "alice" "bob" "hi" "greeting" "t1" "t2" = .ok ib' ∧
      getInbox ib' "bob" = getInbox [] "bob" ++
        [sentMessage "alice" "hi" "greeting" "t1"] ∧
      (∀ a, a ≠ "bob" → a ≠ "team-lead" → getInbox ib' a = getInbox [] a) ∧
      (("alice" ≠ "team-lead" ∧ "bob" ≠ "team-lead") →
        getInbox ib' "team-lead" = getInbox [] "team-lead" ++
          [sentMessage "alice" "hi" (ccSummary "alice" "bob" "greeting")
            "t2"]) ∧
      ("alice" = "team-lead" →
        getInbox ib' "team-lead" = getInbox [] "team-lead") :=
  (send_message_tool_spec (some ["team-lead", "alice", "bob"]) []
      "alice" "bob" "hi" "greeting" "t1" "t2").1
    ⟨by decide, by decide, by decide, by decide, by decide,
      ["team-lead", "alice", "bob"], rfl, by decide, by decide⟩

/-! ## The spawner (`claude_side/spawner.py`, `spawn_external`)

The world holds the parts of the environment `spawn_external` mutates:
the team config's member list (name ↦ `tmux_pane_id`, via
`teams.add_member` / `write_config` / `remove_member` — modelled from the
spec, `common/teams.py` being absent from the sources: `add_member` fails
on a duplicate name, `remove_member` removes the named member), the
team's inboxes, and the set of live tmux panes/windows.  `SpawnEnv`
injects the outcome of each effectful step; a failing
`subprocess.run(tmux …, check=True)` raises without having created a
target, while step 4 (`write_config`) can fail after the pane exists. -/

structure SpawnWorld where
  members : List (String × String)
  inboxes : Inboxes
  panes : List String
  deriving Repr, DecidableEq

structure SpawnEnv where
  binaryFound : Bool
  appendOk : Bool
  spawnResult : Except Unit String
  writeConfigOk : Bool
  unregisterOk : Bool
  deriving Repr, DecidableEq

inductive SpawnErr where
  | invalidName
  | nameTooLong
  | reservedName
  | noBinary
  | duplicateMember
  | appendFailed
  | tmuxSpawnFailed
  | writeConfigFailed
  deriving Repr, DecidableEq

/-- `_VALID_NAME_RE` — modelled from the spec: team/agent names match
`^[A-Za-z0-9_-]+$` (`common/teams.py` is absent from the sources). -/
def validAgentName (name : String) : Bool :=
  !name.data.isEmpty &&
    name.data.all fun c => c.isAlphanum || c = '-' || c = '_'

/-- `ensure_inbox`: create the file with an empty sequence if absent. -/
def ensureInbox (inboxes : Inboxes) (agent : String) : Inboxes :=
  if (inboxes.find? (fun p => p.fst == agent)).isSome then inboxes
  else inboxes ++ [(agent, [])]

/-- Step 4: set the registered member's `tmux_pane_id` (first match, as
the source's `for … break` loop). -/
def setPaneId (members : List (String × String)) (name paneId : String) :
    List (String × String) :=
  match members with
  | [] => []
  | (n, p) :: rest =>
    if n = name then (n, paneId) :: rest
    else (n, p) :: setPaneId rest name paneId

/-- The `except` handler of `spawn_external`: best-effort
`unregister_external_agent` (errors swallowed — `unregisterOk = false`
leaves the member in place), then re-raise.  The handler touches neither
inboxes nor panes: in particular it never runs `kill_tmux_pane`. -/
def spawnRollback (env : SpawnEnv) (name : String) (w : SpawnWorld) :
    SpawnWorld :=
  if env.unregisterOk then
    { w with members := w.members.filter (fun p => !(p.fst == name)) }
  else w

/-- The initial-prompt message written to the new member's inbox in
step 2. -/
def initialPromptMsg (prompt now : String) : Message :=
  { from_ := "team-lead", text := prompt, timestamp := now, read := false,
    summary := none, color := none }

/-- `spawn_external`: validate, register (config entry with an empty pane
id + inbox), then inside `try`: append the initial prompt, spawn the tmux
target, record the pane id in the config.  Any failure after registration
rolls back via `spawnRollback` and propagates the error.  Returns the
outcome together with the final world. -/
def spawn_external (w : SpawnWorld) (env : SpawnEnv)
    (name prompt now : String) : Except SpawnErr String × SpawnWorld :=
  if ¬ validAgentName name then (.error .invalidName, w)
  else if name.length > 64 then (.error .nameTooLong, w)
  else if name = "team-lead" then (.error .reservedName, w)
  else if ¬ env.binaryFound then (.error .noBinary, w)
  else if name ∈ w.members.map Prod.fst then (.error .duplicateMember, w)
  else
    let w1 : SpawnWorld :=
      { w with members := w.members ++ [(name, "")],
               inboxes := ensureInbox w.inboxes name }
    if ¬ env.appendOk then (.error .appendFailed, spawnRollback env name w1)
    else
      let w2 : SpawnWorld :=
        { w1 with inboxes :=
            appendInbox w1.inboxes name (initialPromptMsg prompt now) }
      match env.spawnResult with
      | .error _ => (.error .tmuxSpawnFailed, spawnRollback env name w2)
      | .ok paneId =>
        let w3 : SpawnWorld := { w2 with panes := w2.panes ++ [paneId] }
        if ¬ env.writeConfigOk then
          (.error .writeConfigFailed, spawnRollback env name w3)
        else (.ok paneId, { w3 with members := setPaneId w3.members name paneId })

/-- The concrete run refuting C8: the member registers, the prompt is
appended, tmux creates pane `%5`, then recording the pane id fails. -/
def c8World : SpawnWorld :=
  { members := [("team-lead", "%0")], inboxes := [], panes := ["%0"] }

def c8Env : SpawnEnv :=
  { binaryFound := true, appendOk := true, spawnResult := .ok "%5",
    writeConfigOk := false, unregisterOk := true }

/-- C8 counterexample: on this failing call the error propagates and the
member is unregistered, but the pane `%5` that the call created is still
alive afterwards — the rollback path of `spawn_external` never calls
`kill_tmux_pane`, so the claim's "that pane or window is killed before
the error propagates" is false. -/
theorem spawn_external_leaves_pane_alive :
    (spawn_external c8World c8Env "worker" "do stuff" "t0").fst
        = .error .writeConfigFailed ∧
    "%5" ∈ (spawn_external c8World c8Env "worker" "do stuff" "t0").snd.panes ∧
    "worker" ∉ ((spawn_external c8World c8Env "worker" "do stuff" "t0").snd.members.map
      Prod.fst) := by
  decide

/-- Unregistering removes every config entry with the member's name. -/
theorem not_mem_map_fst_filter_self (l : List (String × String))
    (name : String) :
    name ∉ (l.filter (fun p => !(p.fst == name))).map Prod.fst := by
  intro h
  obtain ⟨p, hp, hfst⟩ := List.mem_map.mp h
  have hcond := List.of_mem_filter hp
  rw [hfst] at hcond
  simp at hcond

theorem spawnRollback_member {env : SpawnEnv} {name : String}
    (w : SpawnWorld) (hur : env.unregisterOk = true) :
    name ∉ (spawnRollback env name w).members.map Prod.fst := by
  rw [spawnRollback, if_pos hur]
  exact not_mem_map_fst_filter_self w.members name

theorem spawnRollback_panes (env : SpawnEnv) (name : String)
    (w : SpawnWorld) : (spawnRollback env name w).panes = w.panes := by
  rw [spawnRollback]
  split <;> rfl

/-- C8 (amended): a `spawn_external` call that fails after the member was
registered — while appending the initial prompt, launching the tmux
target, or recording the pane id — propagates the corresponding error,
and the rollback unregisters the member when the best-effort unregister
succeeds (its errors are swallowed); but a pane or window already created
by the call is NOT killed: it is still alive when the error propagates. -/
theorem spawn_external_rollback (w : SpawnWorld) (env : SpawnEnv)
    (name prompt now : String)
    (hval : validAgentName name = true)
    (hlen : ¬ name.length > 64)
    (hres : name ≠ "team-lead")
    (hbin : env.binaryFound = true)
    (hdup : name ∉ w.members.map Prod.fst)
    (hfail : env.appendOk = false ∨ (∃ u, env.spawnResult = .error u) ∨
      env.writeConfigOk = false) :
    (∃ e, (spawn_external w env name prompt now).fst = .error e ∧
      (e = .appendFailed ∨ e = .tmuxSpawnFailed ∨ e = .writeConfigFailed)) ∧
    (env.unregisterOk = true →
      name ∉ ((spawn_external w env name prompt now).snd.members.map
        Prod.fst)) ∧
    (env.appendOk = true → ∀ paneId, env.spawnResult = .ok paneId →
      env.writeConfigOk = false →
      paneId ∈ (spawn_external w env name prompt now).snd.panes) := by
  rw [spawn_external.eq_def]
  rw [if_neg (not_not_intro hval), if_neg hlen, if_neg hres,
    if_neg (not_not_intro hbin), if_neg hdup]
  by_cases hap : env.appendOk = true
  · rw [if_neg (by simp [hap])]
    cases hsp : env.spawnResult with
    | error u =>
      refine ⟨⟨.tmuxSpawnFailed, rfl, Or.inr (Or.inl rfl)⟩, ?_, ?_⟩
      · intro hur
        exact spawnRollback_member _ hur
      · intro _ paneId hok
        cases hok
    | ok paneId =>
      by_cases hwc : env.writeConfigOk = true
      · exfalso
        rcases hfail with h1 | ⟨u, h1⟩ | h1
        · rw [hap] at h1
          cases h1
        · rw [hsp] at h1
          cases h1
        · rw [hwc] at h1
          cases h1
      · simp only []
        rw [if_pos (show ¬ env.writeConfigOk by simpa using hwc)]
        refine ⟨⟨.writeConfigFailed, rfl, Or.inr (Or.inr rfl)⟩, ?_, ?_⟩
        · intro hur
          exact spawnRollback_member _ hur
        · intro _ pid hok _
          injection hok with hpid
          rw [spawnRollback_panes]
          subst hpid
          simp
  · rw [if_pos (by simpa using hap)]
    refine ⟨⟨.appendFailed, rfl, Or.inl rfl⟩, ?_, ?_⟩
    · intro hur
      exact spawnRollback_member _ hur
    · intro hap2
      rw [hap2] at hap
      exact absurd rfl hap

/-- C8 witness: the amended behaviour at the concrete failing run. -/
theorem spawn_external_rollback_witness :
    (∃ e, (spawn_external c8World c8Env "worker" "do stuff" "t0").fst
        = .error e ∧
      (e = .appendFailed ∨ e = .tmuxSpawnFailed ∨ e = .writeConfigFailed)) ∧
    (c8Env.unregisterOk = true →
      "worker" ∉ ((spawn_external c8World c8Env "worker" "do stuff"
        "t0").snd.members.map Prod.fst)) ∧
    (c8Env.appendOk = true → ∀ paneId, c8Env.spawnResult = .ok paneId →
      c8Env.writeConfigOk = false →
      paneId ∈ (spawn_external c8World c8Env "worker" "do stuff"
        "t0").snd.panes) :=
  spawn_external_rollback c8World c8Env "worker" "do stuff" "t0"
    (by decide) (by decide) (by decide) (by decide) (by decide)
    (Or.inr (Or.inr rfl))

/-! ## Edge symmetry of the task store (C3) -/

/-- Edge symmetry over the task files present on disk: for every pair of
files, `B ∈ A.blocks ⇔ A ∈ B.blocked_by` (files named by their stems). -/
def EdgeSym (store : TaskStore) : Prop :=
  ∀ p ∈ store, ∀ q ∈ store,
    (Prod.fst q ∈ (Prod.snd p).blocks ↔ Prod.fst p ∈ (Prod.snd q).blocked_by)

instance (store : TaskStore) : Decidable (EdgeSym store) := by
  unfold EdgeSym
  infer_instance

/-- Edge symmetry in lookup form. -/
def EdgeSymL (look : String → Option TaskFile) : Prop :=
  ∀ a b ta tb, look a = some ta → look b = some tb →
    (b ∈ ta.blocks ↔ a ∈ tb.blocked_by)

theorem findTask_eq_none_of_not_mem_keys {store : TaskStore} {k : String}
    (h : k ∉ storeKeys store) : findTask store k = none := by
  induction store with
  | nil => rfl
  | cons p rest ih =>
    obtain ⟨a, v⟩ := p
    rw [findTask_cons]
    have hak : a ≠ k := fun hc => h (by simp [storeKeys, hc])
    rw [if_neg hak]
    exact ih fun hc => h (by simp [storeKeys] at hc ⊢; exact Or.inr hc)

theorem findTask_mem {store : TaskStore} {k : String} {t : TaskFile}
    (h : findTask store k = some t) : (k, t) ∈ store := by
  induction store with
  | nil => cases h
  | cons p rest ih =>
    obtain ⟨a, v⟩ := p
    rw [findTask_cons] at h
    by_cases hak : a = k
    · rw [if_pos hak] at h
      cases h
      subst hak
      exact List.mem_cons_self _ _
    · rw [if_neg hak] at h
      exact List.mem_cons_of_mem _ (ih h)

theorem mem_findTask {store : TaskStore} {k : String} {t : TaskFile}
    (hnd : (storeKeys store).Nodup) (h : (k, t) ∈ store) :
    findTask store k = some t := by
  induction store with
  | nil => cases h
  | cons p rest ih =>
    obtain ⟨a, v⟩ := p
    have hnd2 : (a :: storeKeys rest).Nodup := hnd
    rw [findTask_cons]
    rcases List.mem_cons.mp h with heq | hmem
    · cases heq
      rw [if_pos rfl]
    · have hk : k ∈ storeKeys rest :=
        List.mem_map.mpr ⟨(k, t), hmem, rfl⟩
      have hak : a ≠ k := fun hc =>
        (List.nodup_cons.mp hnd2).1 (hc ▸ hk)
      rw [if_neg hak]
      exact ih (List.nodup_cons.mp hnd2).2 hmem

/-- With unique stems, membership symmetry and lookup symmetry agree. -/
theorem edgeSym_iff_symL {store : TaskStore}
    (hnd : (storeKeys store).Nodup) :
    EdgeSym store ↔ EdgeSymL (findTask store) := by
  constructor
  · intro hs a b ta tb ha hb
    exact hs (a, ta) (findTask_mem ha) (b, tb) (findTask_mem hb)
  · intro hs p hp q hq
    exact hs p.fst q.fst p.snd q.snd
      (mem_findTask hnd (by simpa using hp))
      (mem_findTask hnd (by simpa using hq))

/-! ### The C3 counterexample: completing a task breaks symmetry -/

def c3Task1 : TaskFile :=
  { id := "1", subject := "s", description := "", active_form := "",
    status := "pending", blocks := ["2"], blocked_by := [], owner := none,
    metadata := none }

def c3Task2 : TaskFile :=
  { id := "2", subject := "s", description := "", active_form := "",
    status := "pending", blocks := [], blocked_by := ["1"], owner := none,
    metadata := none }

def c3Store : TaskStore := [("1", c3Task1), ("2", c3Task2)]

def c3StoreAfter : TaskStore :=
  [("1", { c3Task1 with status := "completed" }),
   ("2", { c3Task2 with blocked_by := [] })]

/-- C3 counterexample: the store `{1 blocks [2]; 2 blocked_by [1]}` is
edge-symmetric, the update setting task 1's status to `completed`
succeeds, and the resulting store is not edge-symmetric: completion
strips `1` from task 2's `blocked_by` while leaving `2` inside task 1's
`blocks`. -/
theorem update_completed_breaks_edge_symmetry :
    EdgeSym c3Store ∧
    update_task c3Store "1" (some "completed") none none none none [] []
        none = .ok (c3StoreAfter, { c3Task1 with status := "completed" }) ∧
    ¬ EdgeSym c3StoreAfter := by
  refine ⟨by decide, by decide, by decide⟩

/-! ### The numeric id round-trip: `int(str(n)) = n` -/

/-- `int()` of a digit string, as folded by `stemNat`, from an explicit
accumulator. -/
def foldDigits (l : List Char) (acc : Nat) : Nat :=
  l.foldl (fun a c => a * 10 + (c.toNat - '0'.toNat)) acc

theorem foldDigits_append (l1 l2 : List Char) (acc : Nat) :
    foldDigits (l1 ++ l2) acc = foldDigits l2 (foldDigits l1 acc) := by
  rw [foldDigits, foldDigits, foldDigits, List.foldl_append]

/-- A base-10 digit character produced by `Nat.digitChar` decodes back to
its value. -/
theorem digitChar_decode {d : Nat} (h : d < 10) :
    (Nat.digitChar d).toNat - '0'.toNat = d := by
  interval_cases d <;> decide

/-- `Nat.toDigitsCore` only prepends digits to its accumulator list. -/
theorem toDigitsCore_append :
    ∀ (fuel n : Nat) (ds : List Char),
      Nat.toDigitsCore 10 fuel n ds = Nat.toDigitsCore 10 fuel n [] ++ ds := by
  intro fuel
  induction fuel with
  | zero => intro n ds; rfl
  | succ fuel ih =>
    intro n ds
    simp only [Nat.toDigitsCore]
    by_cases hz : n / 10 = 0
    · rw [if_pos hz, if_pos hz]
      rfl
    · rw [if_neg hz, if_neg hz, ih (n / 10) [Nat.digitChar (n % 10)],
        ih (n / 10) (Nat.digitChar (n % 10) :: ds), List.append_assoc]
      rfl

/-- Folding the digit decoding over the decimal digits of `n` recovers
`n`, given enough fuel. -/
theorem foldDigits_toDigitsCore :
    ∀ (fuel n : Nat), n < fuel →
      foldDigits (Nat.toDigitsCore 10 fuel n []) 0 = n := by
  intro fuel
  induction fuel with
  | zero => intro n h; exact absurd h (Nat.not_lt_zero n)
  | succ fuel ih =>
    intro n h
    simp only [Nat.toDigitsCore]
    by_cases hz : n / 10 = 0
    · rw [if_pos hz]
      simp only [foldDigits, List.foldl_cons, List.foldl_nil]
      rw [digitChar_decode (show n % 10 < 10 by omega)]
      omega
    · rw [if_neg hz, toDigitsCore_append, foldDigits_append,
        ih (n / 10) (by omega)]
      simp only [foldDigits, List.foldl_cons, List.foldl_nil]
      rw [digitChar_decode (show n % 10 < 10 by omega)]
      omega

/-- `int(str(n)) = n`. -/
theorem stemNat_toString (n : Nat) : stemNat (toString n) = n := by
  show foldDigits (Nat.toDigits 10 n) 0 = n
  exact foldDigits_toDigitsCore (n + 1) n (Nat.lt_succ_self n)

theorem foldl_max_init_le : ∀ (l : List Nat) (a : Nat), a ≤ l.foldl Nat.max a := by
  intro l
  induction l with
  | nil => intro a; exact Nat.le_refl a
  | cons b rest ih =>
    intro a
    exact Nat.le_trans (Nat.le_max_left a b) (ih (Nat.max a b))

theorem le_foldl_max : ∀ (l : List Nat) (a x : Nat), x ∈ l → x ≤ l.foldl Nat.max a := by
  intro l
  induction l with
  | nil => intro a x hx; cases hx
  | cons b rest ih =>
    intro a x hx
    rcases List.mem_cons.mp hx with rfl | hx
    · exact Nat.le_trans (Nat.le_max_right a x) (foldl_max_init_le rest (Nat.max a x))
    · exact ih (Nat.max a b) x hx

/-- On a directory whose stems are all numeric, `next_task_id` never
collides with an existing stem: it decodes to `max + 1`, strictly above
every stem. -/
theorem next_task_id_fresh {store : TaskStore}
    (hvs : ∀ k ∈ storeKeys store, validStem k = true) :
    next_task_id store ∉ storeKeys store := by
  intro hmem
  have hall : iterValidTaskFiles store none = storeKeys store := by
    rw [iterValidTaskFiles]
    refine List.filter_eq_self.mpr ?_
    intro a ha
    simp only [Option.all_none, Bool.and_true]
    exact hvs a ha
  have hnid : next_task_id store =
      if ((iterValidTaskFiles store none).map stemNat).isEmpty then "1"
      else toString
        (((iterValidTaskFiles store none).map stemNat).foldl Nat.max 0 + 1) := rfl
  rw [hnid] at hmem
  by_cases hemp : ((iterValidTaskFiles store none).map stemNat).isEmpty
  · rw [if_pos hemp] at hmem
    have h0 : iterValidTaskFiles store none = [] := by
      have := List.isEmpty_iff.mp hemp
      exact List.map_eq_nil_iff.mp this
    rw [hall] at h0
    rw [h0] at hmem
    cases hmem
  · rw [if_neg hemp] at hmem
    have h2 : stemNat (toString
        (((iterValidTaskFiles store none).map stemNat).foldl Nat.max 0 + 1)) ∈
        (iterValidTaskFiles store none).map stemNat :=
      List.mem_map.mpr ⟨_, hall.symm ▸ hmem, rfl⟩
    have h3 := le_foldl_max _ 0 _ h2
    rw [stemNat_toString] at h3
    omega

/-! ### Unique stems are preserved by the write primitives -/

theorem writeTask_keys_nodup {store : TaskStore} {k : String} {t : TaskFile}
    (hnd : (storeKeys store).Nodup) : (storeKeys (writeTask store k t)).Nodup := by
  induction store with
  | nil => simp [writeTask, storeKeys]
  | cons p rest ih =>
    obtain ⟨k', v⟩ := p
    have hk' : k' ∉ storeKeys rest := (List.nodup_cons.mp hnd).1
    have hrest : (storeKeys rest).Nodup := (List.nodup_cons.mp hnd).2
    rw [writeTask]
    by_cases hke : k' = k
    · subst hke
      rw [if_pos rfl]
      exact hnd
    · rw [if_neg hke]
      refine List.nodup_cons.mpr ⟨?_, ih hrest⟩
      intro hc
      rcases storeKeys_writeTask _ _ _ _ hc with h1 | h1
      · exact hk' h1
      · exact hke h1

theorem flush_keys_nodup {pw : TaskStore} :
    ∀ {store : TaskStore}, (storeKeys store).Nodup →
      (storeKeys (flushPendingWrites store pw)).Nodup := by
  induction pw with
  | nil => intro store hnd; exact hnd
  | cons p rest ih =>
    intro store hnd
    obtain ⟨k, t⟩ := p
    exact ih (writeTask_keys_nodup hnd)

theorem unlink_keys_nodup {store : TaskStore} {id : String}
    (hnd : (storeKeys store).Nodup) :
    (storeKeys (unlinkTask store id)).Nodup :=
  hnd.sublist ((List.filter_sublist store).map Prod.fst)

theorem iterValid_nodup {store : TaskStore} {ex : Option String}
    (hnd : (storeKeys store).Nodup) : (iterValidTaskFiles store ex).Nodup :=
  hnd.filter _

/-! ### The lookup view of the committed store -/

theorem readOrPending_writeTask_self (store pw : TaskStore) (k : String)
    (t : TaskFile) :
    readOrPending store (writeTask pw k t) k = some t := by
  rw [readOrPending, findTask_writeTask_self]

theorem readOrPending_writeTask_other (store pw : TaskStore) (k a : String)
    (t : TaskFile) (hak : a ≠ k) :
    readOrPending store (writeTask pw k t) a = readOrPending store pw a := by
  rw [readOrPending, readOrPending, findTask_writeTask_other _ _ _ _ hak]

/-- Flushing the pending writes realizes the `_read_or_pending` view on
disk, provided each file is pending at most once. -/
theorem findTask_flush_eq (pw : TaskStore) :
    ∀ (store : TaskStore), (storeKeys pw).Nodup → ∀ (a : String),
      findTask (flushPendingWrites store pw) a = readOrPending store pw a := by
  induction pw with
  | nil =>
    intro store _ a
    rw [readOrPending, findTask_nil]
    rfl
  | cons p rest ih =>
    obtain ⟨k, t⟩ := p
    intro store hnd a
    have hk : k ∉ storeKeys rest := (List.nodup_cons.mp hnd).1
    have hrest : (storeKeys rest).Nodup := (List.nodup_cons.mp hnd).2
    have hstep : flushPendingWrites store ((k, t) :: rest) =
        flushPendingWrites (writeTask store k t) rest := rfl
    rw [hstep, ih (writeTask store k t) hrest a, readOrPending, readOrPending,
      findTask_cons]
    by_cases hka : k = a
    · subst hka
      rw [findTask_eq_none_of_not_mem_keys hk, if_pos rfl,
        findTask_writeTask_self]
    · rw [if_neg hka]
      cases hfr : findTask rest a with
      | some v => rfl
      | none => exact findTask_writeTask_other _ _ _ _ fun h => hka h.symm

theorem findTask_unlink (store : TaskStore) (id a : String) :
    findTask (unlinkTask store id) a =
      if a = id then none else findTask store a := by
  induction store with
  | nil =>
    rw [unlinkTask, List.filter_nil, findTask_nil]
    split <;> rfl
  | cons p rest ih =>
    obtain ⟨k, v⟩ := p
    rw [unlinkTask, List.filter_cons]
    by_cases hki : k = id
    · have hcond : (!(k == id)) = false := by simp [hki]
      rw [hcond, if_neg (by simp)]
      rw [unlinkTask] at ih
      rw [ih, findTask_cons]
      by_cases hai : a = id
      · rw [if_pos hai, if_pos hai]
      · rw [if_neg hai, if_neg hai, if_neg (show k ≠ a by rw [hki]; exact fun h => hai h.symm)]
    · have hcond : (!(k == id)) = true := by simp [hki]
      rw [hcond, if_pos rfl, findTask_cons, findTask_cons]
      by_cases hka : k = a
      · rw [if_pos hka, if_pos hka, if_neg (show a ≠ id from hka ▸ hki)]
      · rw [if_neg hka, if_neg hka]
        rw [unlinkTask] at ih
        rw [ih]

/-! ### Symmetry of the in-memory view during an update -/

/-- The in-memory view of the directory during an `update_task` call:
the task being updated shadows everything, then the pending writes,
then the disk. -/
def overlayView (store pw : TaskStore) (taskId : String) (task : TaskFile)
    (k : String) : Option TaskFile :=
  if k = taskId then some task else readOrPending store pw k

/-- Views equal pointwise have the same symmetry. -/
theorem edgeSymL_congr {f g : String → Option TaskFile}
    (hfg : ∀ k, f k = g k) (h : EdgeSymL f) : EdgeSymL g := by
  intro a b ta tb ha hb
  exact h a b ta tb ((hfg a).trans ha) ((hfg b).trans hb)

/-- Replacing the file at one key by a file with the same edge lists
preserves symmetry of the view. -/
theorem edgeSymL_congr_at {f g : String → Option TaskFile} {x : String}
    {tx tx' : TaskFile}
    (hf : f x = some tx) (hg : g x = some tx')
    (hbl : tx'.blocks = tx.blocks) (hbb : tx'.blocked_by = tx.blocked_by)
    (hag : ∀ k, k ≠ x → g k = f k) (h : EdgeSymL f) : EdgeSymL g := by
  have hcase : ∀ {z : String} {tz : TaskFile}, g z = some tz →
      ∃ tz0, f z = some tz0 ∧ tz.blocks = tz0.blocks ∧
        tz.blocked_by = tz0.blocked_by := by
    intro z tz hz
    by_cases hzx : z = x
    · subst hzx
      have htz : tz = tx' := by
        rw [hg] at hz
        exact (Option.some.injEq _ _ ▸ hz).symm
      exact ⟨tx, hf, by rw [htz, hbl], by rw [htz, hbb]⟩
    · exact ⟨tz, by rw [← hag z hzx]; exact hz, rfl, rfl⟩
  intro a c ta tc ha hc
  obtain ⟨ta0, hfa, hba1, _⟩ := hcase ha
  obtain ⟨tc0, hfc, _, hbc2⟩ := hcase hc
  rw [hba1, hbc2]
  exact h _ _ _ _ hfa hfc

/-- `lst if-absent-append`: the list update used by `_apply_edges`
(`if v not in lst: lst.append(v)`). -/
def addUnless (l : List String) (b : String) : List String :=
  if b ∈ l then l else l ++ [b]

theorem mem_addUnless {a b : String} {l : List String} :
    a ∈ addUnless l b ↔ a ∈ l ∨ a = b := by
  rw [addUnless]
  split
  · rename_i hb
    constructor
    · exact Or.inl
    · rintro (h1 | rfl)
      · exact h1
      · exact hb
  · simp [List.mem_append]

/-- The view after one loop iteration of `_apply_edges`: the two files
touched by the edge shadow the previous view. -/
def addEdgeView (f : String → Option TaskFile) (x y : String)
    (tx ty : TaskFile) (k : String) : Option TaskFile :=
  if k = x then some tx else if k = y then some ty else f k

/-- Adding one symmetric edge `y ∈ x.blocks / x ∈ y.blocked_by` to a
symmetric view keeps it symmetric. -/
theorem edgeSymL_addEdge {f : String → Option TaskFile} {x y : String}
    {tx ty tx' ty' : TaskFile} (hxy : x ≠ y)
    (hx : f x = some tx) (hy : f y = some ty)
    (hbl : tx'.blocks = addUnless tx.blocks y)
    (hbb : tx'.blocked_by = tx.blocked_by)
    (hbl2 : ty'.blocks = ty.blocks)
    (hbb2 : ty'.blocked_by = addUnless ty.blocked_by x)
    (h : EdgeSymL f) :
    EdgeSymL (addEdgeView f x y tx' ty') := by
  intro a c ta tc ha hc
  rw [addEdgeView] at ha hc
  have hcase : ∀ {z : String} {tz : TaskFile},
      (if z = x then some tx' else if z = y then some ty' else f z) = some tz →
      (z = x ∧ tz = tx') ∨ (z = y ∧ tz = ty') ∨
        (z ≠ x ∧ z ≠ y ∧ f z = some tz) := by
    intro z tz hz
    by_cases hzx : z = x
    · rw [if_pos hzx] at hz
      exact Or.inl ⟨hzx, (Option.some.injEq _ _ ▸ hz).symm⟩
    · rw [if_neg hzx] at hz
      by_cases hzy : z = y
      · rw [if_pos hzy] at hz
        exact Or.inr (Or.inl ⟨hzy, (Option.some.injEq _ _ ▸ hz).symm⟩)
      · rw [if_neg hzy] at hz
        exact Or.inr (Or.inr ⟨hzx, hzy, hz⟩)
  rcases hcase ha with ⟨rfl, rfl⟩ | ⟨rfl, rfl⟩ | ⟨hax, hay, hfa⟩ <;>
    rcases hcase hc with ⟨hc1, rfl⟩ | ⟨hc1, rfl⟩ | ⟨hcx, hcy, hfc⟩
  · -- a = x, c = x
    subst hc1
    rw [hbl, hbb, mem_addUnless]
    constructor
    · rintro (hm | rfl)
      · exact (h _ _ _ _ hx hx).mp hm
      · exact absurd rfl hxy
    · intro hm
      exact Or.inl ((h _ _ _ _ hx hx).mpr hm)
  · -- a = x, c = y
    subst hc1
    rw [hbl, hbb2, mem_addUnless, mem_addUnless]
    simp
  · -- a = x, c fresh
    rw [hbl, mem_addUnless]
    constructor
    · rintro (hm | rfl)
      · exact (h _ _ _ _ hx hfc).mp hm
      · exact absurd rfl hcy
    · intro hm
      exact Or.inl ((h _ _ _ _ hx hfc).mpr hm)
  · -- a = y, c = x
    subst hc1
    rw [hbl2, hbb]
    exact h _ _ _ _ hy hx
  · -- a = y, c = y
    subst hc1
    rw [hbl2, hbb2, mem_addUnless]
    constructor
    · intro hm
      exact Or.inl ((h _ _ _ _ hy hy).mp hm)
    · rintro (hm | h1)
      · exact (h _ _ _ _ hy hy).mpr hm
      · exact absurd h1.symm hxy
  · -- a = y, c fresh
    rw [hbl2]
    exact h _ _ _ _ hy hfc
  · -- a fresh, c = x
    subst hc1
    rw [hbb]
    exact h _ _ _ _ hfa hx
  · -- a fresh, c = y
    subst hc1
    rw [hbb2, mem_addUnless]
    constructor
    · intro hm
      exact Or.inl ((h _ _ _ _ hfa hy).mp hm)
    · rintro (hm | rfl)
      · exact (h _ _ _ _ hfa hy).mpr hm
      · exact absurd rfl hax
  · -- both fresh
    exact h _ _ _ _ hfa hfc

/-! ### `_apply_edges` preserves symmetry of the view -/

theorem addBlocksTask_blocks (task : TaskFile) (b : String) :
    (if b ∈ task.blocks then task
      else { task with blocks := task.blocks ++ [b] }).blocks =
      addUnless task.blocks b := by
  rw [addUnless]
  split <;> rfl

theorem addBlocksTask_blockedBy (task : TaskFile) (b : String) :
    (if b ∈ task.blocks then task
      else { task with blocks := task.blocks ++ [b] }).blocked_by =
      task.blocked_by := by
  split <;> rfl

theorem addBlockedByTask_blockedBy (task : TaskFile) (b : String) :
    (if b ∈ task.blocked_by then task
      else { task with blocked_by := task.blocked_by ++ [b] }).blocked_by =
      addUnless task.blocked_by b := by
  rw [addUnless]
  split <;> rfl

theorem addBlockedByTask_blocks (task : TaskFile) (b : String) :
    (if b ∈ task.blocked_by then task
      else { task with blocked_by := task.blocked_by ++ [b] }).blocks =
      task.blocks := by
  split <;> rfl

theorem overlayView_self (store pw : TaskStore) (taskId : String)
    (task : TaskFile) : overlayView store pw taskId task taskId = some task := by
  rw [overlayView, if_pos rfl]

theorem overlayView_other (store pw : TaskStore) (taskId : String)
    (task : TaskFile) (k : String) (hk : k ≠ taskId) :
    overlayView store pw taskId task k = readOrPending store pw k := by
  rw [overlayView, if_neg hk]

/-- One `add_blocks` iteration turns the overlay view into an
`addEdgeView`. -/
theorem overlayView_step_blocks (store pw : TaskStore) (taskId b : String)
    (task task1 other1 : TaskFile) (hb : b ≠ taskId) (k : String) :
    addEdgeView (overlayView store pw taskId task) taskId b task1 other1 k =
      overlayView store (writeTask pw b other1) taskId task1 k := by
  by_cases hk : k = taskId
  · subst hk
    rw [addEdgeView, if_pos rfl, overlayView_self]
  · rw [overlayView_other _ _ _ _ _ hk, addEdgeView, if_neg hk]
    by_cases hkb : k = b
    · subst hkb
      rw [if_pos rfl, readOrPending_writeTask_self]
    · rw [if_neg hkb, readOrPending_writeTask_other _ _ _ _ _ hkb,
        overlayView_other _ _ _ _ _ hk]

/-- One `add_blocked_by` iteration turns the overlay view into an
`addEdgeView` (with the roles of the two files swapped). -/
theorem overlayView_step_blockedBy (store pw : TaskStore) (taskId b : String)
    (task task1 other1 : TaskFile) (hb : b ≠ taskId) (k : String) :
    addEdgeView (overlayView store pw taskId task) b taskId other1 task1 k =
      overlayView store (writeTask pw b other1) taskId task1 k := by
  by_cases hk : k = taskId
  · subst hk
    rw [addEdgeView, if_neg fun hc => hb hc.symm, if_pos rfl, overlayView_self]
  · rw [overlayView_other _ _ _ _ _ hk, addEdgeView]
    by_cases hkb : k = b
    · subst hkb
      rw [if_pos rfl, readOrPending_writeTask_self]
    · rw [if_neg hkb, if_neg hk, overlayView_other _ _ _ _ _ hk,
        readOrPending_writeTask_other _ _ _ _ _ hkb]

theorem applyBlocksList_symL {store : TaskStore} {taskId : String} :
    ∀ {ids : List String} {task : TaskFile} {pw : TaskStore}
      {task' : TaskFile} {pw' : TaskStore},
      (∀ b ∈ ids, b ≠ taskId) →
      EdgeSymL (overlayView store pw taskId task) →
      applyBlocksList store taskId task pw ids = .ok (task', pw') →
      EdgeSymL (overlayView store pw' taskId task') := by
  intro ids
  induction ids with
  | nil =>
    intro task pw task' pw' _ hsym h
    cases h
    exact hsym
  | cons b rest ih =>
    intro task pw task' pw' hne hsym h
    simp only [applyBlocksList] at h
    cases hro : readOrPending store pw b with
    | none =>
      simp only [hro] at h
      cases h
    | some other =>
      simp only [hro] at h
      have hb : b ≠ taskId := hne b (List.mem_cons_self b rest)
      refine ih (fun z hz => hne z (List.mem_cons_of_mem _ hz)) ?_ h
      refine edgeSymL_congr
        (fun k => overlayView_step_blocks store pw taskId b task _ _ hb k) ?_
      refine edgeSymL_addEdge (fun hc => hb hc.symm)
        (overlayView_self store pw taskId task)
        ((overlayView_other store pw taskId task b hb).trans hro)
        (addBlocksTask_blocks task b) (addBlocksTask_blockedBy task b)
        ?_ ?_ hsym
      · split <;> rfl
      · rw [addUnless]
        split <;> rfl

theorem applyBlockedByList_symL {store : TaskStore} {taskId : String} :
    ∀ {ids : List String} {task : TaskFile} {pw : TaskStore}
      {task' : TaskFile} {pw' : TaskStore},
      (∀ b ∈ ids, b ≠ taskId) →
      EdgeSymL (overlayView store pw taskId task) →
      applyBlockedByList store taskId task pw ids = .ok (task', pw') →
      EdgeSymL (overlayView store pw' taskId task') := by
  intro ids
  induction ids with
  | nil =>
    intro task pw task' pw' _ hsym h
    cases h
    exact hsym
  | cons b rest ih =>
    intro task pw task' pw' hne hsym h
    simp only [applyBlockedByList] at h
    cases hro : readOrPending store pw b with
    | none =>
      simp only [hro] at h
      cases h
    | some other =>
      simp only [hro] at h
      have hb : b ≠ taskId := hne b (List.mem_cons_self b rest)
      refine ih (fun z hz => hne z (List.mem_cons_of_mem _ hz)) ?_ h
      refine edgeSymL_congr
        (fun k => overlayView_step_blockedBy store pw taskId b task _ _ hb k) ?_
      refine edgeSymL_addEdge hb
        ((overlayView_other store pw taskId task b hb).trans hro)
        (overlayView_self store pw taskId task)
        ?_ ?_
        (addBlockedByTask_blocks task b)
        (addBlockedByTask_blockedBy task b) hsym
      · rw [addUnless]
        split <;> rfl
      · split <;> rfl

theorem applyEdges_symL {store : TaskStore} {taskId : String}
    {task : TaskFile} {addBlocks addBlockedBy : List String}
    {pw0 : TaskStore} {task' : TaskFile} {pw' : TaskStore}
    (hne1 : ∀ b ∈ addBlocks, b ≠ taskId)
    (hne2 : ∀ b ∈ addBlockedBy, b ≠ taskId)
    (hsym : EdgeSymL (overlayView store pw0 taskId task))
    (h : applyEdges store taskId task addBlocks addBlockedBy pw0 =
      .ok (task', pw')) :
    EdgeSymL (overlayView store pw' taskId task') := by
  rw [applyEdges] at h
  cases hab : applyBlocksList store taskId task pw0 addBlocks with
  | error e =>
    rw [hab] at h
    cases h
  | ok acc =>
    rw [hab] at h
    obtain ⟨acc1, acc2⟩ := acc
    exact applyBlockedByList_symL hne2 (applyBlocksList_symL hne1 hsym hab) h

/-! ### The pending writes stay duplicate-free -/

theorem applyBlocksList_pw_nodup {store : TaskStore} {taskId : String} :
    ∀ {ids : List String} {task : TaskFile} {pw : TaskStore}
      {task' : TaskFile} {pw' : TaskStore},
      (storeKeys pw).Nodup →
      applyBlocksList store taskId task pw ids = .ok (task', pw') →
      (storeKeys pw').Nodup := by
  intro ids
  induction ids with
  | nil =>
    intro task pw task' pw' hnd h
    cases h
    exact hnd
  | cons b rest ih =>
    intro task pw task' pw' hnd h
    simp only [applyBlocksList] at h
    cases hro : readOrPending store pw b with
    | none =>
      simp only [hro] at h
      cases h
    | some other =>
      simp only [hro] at h
      exact ih (writeTask_keys_nodup hnd) h

theorem applyBlockedByList_pw_nodup {store : TaskStore} {taskId : String} :
    ∀ {ids : List String} {task : TaskFile} {pw : TaskStore}
      {task' : TaskFile} {pw' : TaskStore},
      (storeKeys pw).Nodup →
      applyBlockedByList store taskId task pw ids = .ok (task', pw') →
      (storeKeys pw').Nodup := by
  intro ids
  induction ids with
  | nil =>
    intro task pw task' pw' hnd h
    cases h
    exact hnd
  | cons b rest ih =>
    intro task pw task' pw' hnd h
    simp only [applyBlockedByList] at h
    cases hro : readOrPending store pw b with
    | none =>
      simp only [hro] at h
      cases h
    | some other =>
      simp only [hro] at h
      exact ih (writeTask_keys_nodup hnd) h

theorem applyEdges_pw_nodup {store : TaskStore} {taskId : String}
    {task : TaskFile} {addBlocks addBlockedBy : List String}
    {pw0 : TaskStore} {task' : TaskFile} {pw' : TaskStore}
    (hnd : (storeKeys pw0).Nodup)
    (h : applyEdges store taskId task addBlocks addBlockedBy pw0 =
      .ok (task', pw')) :
    (storeKeys pw').Nodup := by
  rw [applyEdges] at h
  cases hab : applyBlocksList store taskId task pw0 addBlocks with
  | error e =>
    rw [hab] at h
    cases h
  | ok acc =>
    rw [hab] at h
    obtain ⟨acc1, acc2⟩ := acc
    exact applyBlockedByList_pw_nodup (applyBlocksList_pw_nodup hnd hab) h

theorem cleanStep_nodup {store : TaskStore} {taskId : String} {rb : Bool}
    {pw : TaskStore} {f : String} (hnd : (storeKeys pw).Nodup) :
    (storeKeys (cleanStep store taskId rb pw f)).Nodup := by
  rw [cleanStep]
  cases hro : readOrPending store pw f with
  | none =>
    simp only [hro]
    exact hnd
  | some other =>
    simp only [hro]
    split
    · exact writeTask_keys_nodup hnd
    · exact hnd

theorem cleanFold_nodup {store : TaskStore} {taskId : String} {rb : Bool} :
    ∀ {fs : List String} {pw : TaskStore}, (storeKeys pw).Nodup →
      (storeKeys (fs.foldl (cleanStep store taskId rb) pw)).Nodup := by
  intro fs
  induction fs with
  | nil => intro pw hnd; exact hnd
  | cons f rest ih =>
    intro pw hnd
    exact ih (cleanStep_nodup hnd)

/-! ### The view through `_clean_task_references` -/

/-- The per-file effect of one cleanup pass: the cleaned id is erased
from `blocked_by` (and from `blocks` when `removeBlocks`). -/
def cleanView (taskId : String) (rb : Bool) (t : TaskFile) : TaskFile :=
  if rb then
    { t with blocked_by := t.blocked_by.erase taskId,
             blocks := t.blocks.erase taskId }
  else { t with blocked_by := t.blocked_by.erase taskId }

theorem cleanTaskUpdate_fst (taskId : String) (rb : Bool) (t : TaskFile) :
    (cleanTaskUpdate taskId rb t).fst = cleanView taskId rb t := by
  by_cases h1 : taskId ∈ t.blocked_by <;> by_cases h2 : taskId ∈ t.blocks <;>
    cases rb <;>
    simp [cleanTaskUpdate, cleanView, h1, h2, List.erase_of_not_mem]

/-- A cleanup step that reports no change indeed changes nothing. -/
theorem cleanTaskUpdate_unchanged {taskId : String} {rb : Bool} {t : TaskFile}
    (h : (cleanTaskUpdate taskId rb t).snd = false) :
    cleanView taskId rb t = t := by
  by_cases h1 : taskId ∈ t.blocked_by <;> by_cases h2 : taskId ∈ t.blocks <;>
    cases rb <;>
    simp [cleanTaskUpdate, cleanView, h1, h2, List.erase_of_not_mem] at h ⊢

theorem cleanStep_view_self {store : TaskStore} {taskId : String} {rb : Bool}
    {pw : TaskStore} {f : String} :
    readOrPending store (cleanStep store taskId rb pw f) f =
      (readOrPending store pw f).map (cleanView taskId rb) := by
  rw [cleanStep]
  cases hro : readOrPending store pw f with
  | none => simp only [hro, Option.map_none']
  | some other =>
    simp only [hro, Option.map_some']
    by_cases hch : (cleanTaskUpdate taskId rb other).snd = true
    · rw [if_pos hch, readOrPending_writeTask_self, cleanTaskUpdate_fst]
    · rw [if_neg hch, hro,
        cleanTaskUpdate_unchanged ((Bool.not_eq_true _) ▸ hch)]

theorem cleanStep_view_other {store : TaskStore} {taskId : String} {rb : Bool}
    {pw : TaskStore} {f k : String} (hk : k ≠ f) :
    readOrPending store (cleanStep store taskId rb pw f) k =
      readOrPending store pw k := by
  rw [cleanStep]
  cases hro : readOrPending store pw f with
  | none => simp only [hro]
  | some other =>
    simp only [hro]
    split
    · exact readOrPending_writeTask_other _ _ _ _ _ hk
    · rfl

theorem cleanFold_view {store : TaskStore} {taskId : String} {rb : Bool} :
    ∀ {fs : List String}, fs.Nodup → ∀ {pw : TaskStore} (k : String),
      readOrPending store (fs.foldl (cleanStep store taskId rb) pw) k =
        if k ∈ fs then (readOrPending store pw k).map (cleanView taskId rb)
        else readOrPending store pw k := by
  intro fs
  induction fs with
  | nil =>
    intro _ pw k
    rw [List.foldl_nil, if_neg (List.not_mem_nil k)]
  | cons f rest ih =>
    intro hnd pw k
    have hf : f ∉ rest := (List.nodup_cons.mp hnd).1
    have hrest : rest.Nodup := (List.nodup_cons.mp hnd).2
    rw [List.foldl_cons, ih hrest k]
    by_cases hkr : k ∈ rest
    · have hkf : k ≠ f := fun hc => hf (hc ▸ hkr)
      rw [if_pos hkr, if_pos (List.mem_cons_of_mem _ hkr),
        cleanStep_view_other hkf]
    · rw [if_neg hkr]
      by_cases hkf : k = f
      · subst hkf
        rw [if_pos (List.mem_cons_self k rest), cleanStep_view_self]
      · rw [if_neg (fun hc => (List.mem_cons.mp hc).elim hkf hkr),
          cleanStep_view_other hkf]

theorem cleanView_blocks_mem {taskId : String} {rb : Bool} {t : TaskFile}
    {z : String} (hz : z ≠ taskId) :
    (z ∈ (cleanView taskId rb t).blocks) ↔ z ∈ t.blocks := by
  rw [cleanView]
  split
  · exact List.mem_erase_of_ne hz
  · exact Iff.rfl

theorem cleanView_blockedBy_mem {taskId : String} {rb : Bool} {t : TaskFile}
    {z : String} (hz : z ≠ taskId) :
    (z ∈ (cleanView taskId rb t).blocked_by) ↔ z ∈ t.blocked_by := by
  rw [cleanView]
  split <;> exact List.mem_erase_of_ne hz

/-- Reading through the cleanup fold: a file found afterwards was already
there, with the same edge lists apart from references to the cleaned
id. -/
theorem readOrPending_cleanFold {store : TaskStore} {taskId : String}
    {rb : Bool} {fs : List String} (hfs : fs.Nodup) {pw : TaskStore}
    {a : String} {ta : TaskFile}
    (ha : readOrPending store (fs.foldl (cleanStep store taskId rb) pw) a =
      some ta) :
    ∃ ta0, readOrPending store pw a = some ta0 ∧
      (∀ z, z ≠ taskId → ((z ∈ ta.blocks) ↔ z ∈ ta0.blocks)) ∧
      (∀ z, z ≠ taskId → ((z ∈ ta.blocked_by) ↔ z ∈ ta0.blocked_by)) := by
  rw [cleanFold_view hfs a] at ha
  by_cases hm : a ∈ fs
  · rw [if_pos hm] at ha
    cases hro : readOrPending store pw a with
    | none =>
      rw [hro] at ha
      cases ha
    | some ta0 =>
      rw [hro, Option.map_some'] at ha
      injection ha with hta
      refine ⟨ta0, rfl, ?_, ?_⟩
      · intro z hz
        rw [← hta]
        exact cleanView_blocks_mem hz
      · intro z hz
        rw [← hta]
        exact cleanView_blockedBy_mem hz
  · rw [if_neg hm] at ha
    exact ⟨ta, ha, fun z _ => Iff.rfl, fun z _ => Iff.rfl⟩

/-! ### Committing the update realizes the overlay view -/

theorem applyScalarFields_blocks (task : TaskFile)
    (subject description active_form owner : Option String) :
    (applyScalarFields task subject description active_form owner).blocks =
      task.blocks := by
  rw [applyScalarFields.eq_def]
  cases subject <;> cases description <;> cases active_form <;>
    cases owner <;> rfl

theorem applyScalarFields_blockedBy (task : TaskFile)
    (subject description active_form owner : Option String) :
    (applyScalarFields task subject description active_form owner).blocked_by =
      task.blocked_by := by
  rw [applyScalarFields.eq_def]
  cases subject <;> cases description <;> cases active_form <;>
    cases owner <;> rfl

theorem applyMetadataOpt_blocks (task : TaskFile)
    (metadata : Option (List (String × Option String))) :
    (applyMetadataOpt task metadata).blocks = task.blocks := by
  cases metadata <;> rfl

theorem applyMetadataOpt_blockedBy (task : TaskFile)
    (metadata : Option (List (String × Option String))) :
    (applyMetadataOpt task metadata).blocked_by = task.blocked_by := by
  cases metadata <;> rfl

theorem applyStatusAndCleanup_some {s : String} (h1 : s ≠ "deleted")
    (h2 : s ≠ "completed") (store : TaskStore) (taskId : String)
    (task : TaskFile) (pw : TaskStore) :
    applyStatusAndCleanup store taskId task (some s) pw =
      ({ task with status := s }, pw) := by
  rw [applyStatusAndCleanup, if_pos h1, if_neg h2]

theorem applyStatusAndCleanup_deleted (store : TaskStore) (taskId : String)
    (task : TaskFile) (pw : TaskStore) :
    applyStatusAndCleanup store taskId task (some "deleted") pw =
      ({ task with status := "deleted" },
        cleanTaskReferences store taskId pw true) := by
  rw [applyStatusAndCleanup, if_neg (by simp)]

theorem findTask_flush_writeTask {store pw : TaskStore} {taskId : String}
    {t : TaskFile} (hnd : (storeKeys pw).Nodup) (hnk : taskId ∉ storeKeys pw)
    (k : String) :
    findTask (flushPendingWrites (writeTask store taskId t) pw) k =
      overlayView store pw taskId t k := by
  rw [findTask_flush_eq pw (writeTask store taskId t) hnd k, overlayView]
  by_cases hk : k = taskId
  · subst hk
    rw [if_pos rfl]
    simp only [readOrPending, findTask_eq_none_of_not_mem_keys hnk,
      findTask_writeTask_self]
  · rw [if_neg hk, readOrPending, readOrPending]
    cases hpw : findTask pw k with
    | some v => simp only [hpw]
    | none =>
      simp only [hpw]
      exact findTask_writeTask_other _ _ _ _ hk

theorem findTask_unlink_flush {store pw : TaskStore} {taskId : String}
    (hnd : (storeKeys pw).Nodup) (k : String) :
    findTask (unlinkTask (flushPendingWrites store pw) taskId) k =
      if k = taskId then none else readOrPending store pw k := by
  rw [findTask_unlink, findTask_flush_eq pw store hnd k]

/-- Committing a non-deleting update: the on-disk store realizes the
overlay view, so a symmetric view commits to a symmetric store. -/
theorem writeTaskUpdates_edgeSym_nondel {store pw : TaskStore}
    {taskId : String} {t : TaskFile} {status : Option String}
    (hdel : status ≠ some "deleted")
    (hnd : (storeKeys store).Nodup) (hpwnd : (storeKeys pw).Nodup)
    (hpwni : taskId ∉ storeKeys pw)
    (hsym : EdgeSymL (overlayView store pw taskId t)) :
    EdgeSym (writeTaskUpdates store taskId t status pw) := by
  rw [writeTaskUpdates, if_neg hdel]
  refine (edgeSym_iff_symL (flush_keys_nodup (writeTask_keys_nodup hnd))).mpr ?_
  exact edgeSymL_congr (fun k => (findTask_flush_writeTask hpwnd hpwni k).symm)
    hsym

/-- Committing a deletion: the deleted file disappears and every
surviving file loses exactly its references to the deleted id, so a
symmetric view commits to a symmetric store. -/
theorem writeTaskUpdates_edgeSym_del {store pw : TaskStore}
    {taskId : String} {t : TaskFile}
    (hnd : (storeKeys store).Nodup) (hpwnd : (storeKeys pw).Nodup)
    (hsym : EdgeSymL (overlayView store pw taskId t)) :
    EdgeSym (writeTaskUpdates store taskId t (some "deleted")
      (cleanTaskReferences store taskId pw true)) := by
  rw [writeTaskUpdates, if_pos rfl]
  have hpw2nd : (storeKeys (cleanTaskReferences store taskId pw true)).Nodup := by
    rw [cleanTaskReferences]
    exact cleanFold_nodup hpwnd
  refine (edgeSym_iff_symL (unlink_keys_nodup (flush_keys_nodup hnd))).mpr ?_
  intro a c ta tc ha hc
  rw [findTask_unlink_flush hpw2nd a] at ha
  rw [findTask_unlink_flush hpw2nd c] at hc
  by_cases hat : a = taskId
  · rw [if_pos hat] at ha
    cases ha
  · rw [if_neg hat] at ha
    by_cases hct : c = taskId
    · rw [if_pos hct] at hc
      cases hc
    · rw [if_neg hct] at hc
      rw [cleanTaskReferences] at ha hc
      obtain ⟨ta0, hra, hba, _⟩ := readOrPending_cleanFold (iterValid_nodup hnd) ha
      obtain ⟨tc0, hrc, _, hbbc⟩ := readOrPending_cleanFold (iterValid_nodup hnd) hc
      rw [hba c hct, hbbc a hat]
      have h1 : overlayView store pw taskId t a = some ta0 := by
        rw [overlayView_other _ _ _ _ _ hat]
        exact hra
      have h2 : overlayView store pw taskId t c = some tc0 := by
        rw [overlayView_other _ _ _ _ _ hct]
        exact hrc
      exact hsym a c ta0 tc0 h1 h2

/-- A successful `update_task` whose requested status is not
`"completed"` preserves edge symmetry of the directory. -/
theorem update_task_edgeSym
    {store : TaskStore} {taskId : String}
    {status owner subject description active_form : Option String}
    {addBlocks addBlockedBy : List String}
    {metadata : Option (List (String × Option String))}
    {st' : TaskStore} {t' : TaskFile}
    (hnd : (storeKeys store).Nodup) (hsym : EdgeSym store)
    (hstat : status ≠ some "completed")
    (h : update_task store taskId status owner subject description
      active_form addBlocks addBlockedBy metadata = .ok (st', t')) :
    EdgeSym st' := by
  rw [update_task] at h
  cases hft : findTask store taskId with
  | none =>
    rw [hft] at h
    cases h
  | some task =>
    rw [hft] at h
    obtain ⟨pend, hbp, h2⟩ := exBind_ok_split h
    obtain ⟨u, hcc, h3⟩ := exBind_ok_split h2
    obtain ⟨v, hsg, h4⟩ := exBind_ok_split h3
    rw [updApply] at h4
    obtain ⟨tp, hae, h5⟩ := exBind_ok_split h4
    injection h5 with h6
    have hst' := congrArg Prod.fst h6
    simp only at hst'
    subst hst'
    obtain ⟨hne1, hne2⟩ := buildPendingEdges_ok_ne hbp
    have hsym0 : EdgeSymL (overlayView store [] taskId
        (applyScalarFields task subject description active_form owner)) := by
      refine edgeSymL_congr_at hft (overlayView_self store [] taskId _)
        (applyScalarFields_blocks _ _ _ _ _)
        (applyScalarFields_blockedBy _ _ _ _ _)
        (fun k hk => overlayView_other _ _ _ _ _ hk)
        ((edgeSym_iff_symL hnd).mp hsym)
    have hsym1 := applyEdges_symL hne1 hne2 hsym0 hae
    have hpwnd : (storeKeys tp.snd).Nodup :=
      applyEdges_pw_nodup (show (storeKeys []).Nodup from List.nodup_nil) hae
    have hpwni : taskId ∉ storeKeys tp.snd := by
      intro hc
      obtain ⟨_, _, hkeys⟩ := applyEdges_ok_frame hae
      rcases hkeys taskId hc with h8 | h8 | h8
      · cases h8
      · exact hne1 taskId h8 rfl
      · exact hne2 taskId h8 rfl
    have hsym2 : EdgeSymL (overlayView store tp.snd taskId
        (applyMetadataOpt tp.fst metadata)) := by
      refine edgeSymL_congr_at (overlayView_self store tp.snd taskId tp.fst)
        (overlayView_self store tp.snd taskId _)
        (applyMetadataOpt_blocks _ _) (applyMetadataOpt_blockedBy _ _)
        (fun k hk => by
          rw [overlayView_other _ _ _ _ _ hk, overlayView_other _ _ _ _ _ hk])
        hsym1
    have hsymS : ∀ s : String, EdgeSymL (overlayView store tp.snd taskId
        { applyMetadataOpt tp.fst metadata with status := s }) := by
      intro s
      refine edgeSymL_congr_at
        (overlayView_self store tp.snd taskId (applyMetadataOpt tp.fst metadata))
        (overlayView_self store tp.snd taskId _) rfl rfl
        (fun k hk => by
          rw [overlayView_other _ _ _ _ _ hk, overlayView_other _ _ _ _ _ hk])
        hsym2
    cases status with
    | none =>
      exact writeTaskUpdates_edgeSym_nondel (by simp) hnd hpwnd hpwni hsym2
    | some s =>
      have hsc : s ≠ "completed" := by
        intro hc
        exact hstat (by rw [hc])
      by_cases hsd : s = "deleted"
      · subst hsd
        rw [applyStatusAndCleanup_deleted]
        exact writeTaskUpdates_edgeSym_del hnd hpwnd (hsymS "deleted")
      · rw [applyStatusAndCleanup_some hsd hsc]
        refine writeTaskUpdates_edgeSym_nondel ?_ hnd hpwnd hpwni (hsymS s)
        intro hc
        exact hsd (Option.some.inj hc)

/-! ### `create_task` and `reset_owner_tasks` preserve symmetry -/

/-- Every edge of every stored file points at an existing file. -/
def NoDangling (store : TaskStore) : Prop :=
  ∀ p ∈ store, (∀ b ∈ (Prod.snd p).blocks, b ∈ storeKeys store) ∧
    (∀ b ∈ (Prod.snd p).blocked_by, b ∈ storeKeys store)

instance (store : TaskStore) : Decidable (NoDangling store) := by
  unfold NoDangling
  infer_instance

theorem writeTask_append_of_not_mem {store : TaskStore} {k : String}
    {t : TaskFile} (hk : k ∉ storeKeys store) :
    writeTask store k t = store ++ [(k, t)] := by
  induction store with
  | nil => rfl
  | cons p rest ih =>
    obtain ⟨k', v⟩ := p
    have hkk : k' ≠ k := fun hc => hk (hc ▸ List.mem_cons_self _ _)
    rw [writeTask, if_neg hkk, List.cons_append,
      ih fun hc => hk (List.mem_cons_of_mem _ hc)]

/-- Appending a fresh file with empty edge lists that no stored file
references keeps the store symmetric. -/
theorem edgeSym_append_isolated {store : TaskStore} {k : String} {t : TaskFile}
    (hbl : t.blocks = []) (hbb : t.blocked_by = [])
    (hout : ∀ p ∈ store, k ∉ (Prod.snd p).blocks ∧ k ∉ (Prod.snd p).blocked_by)
    (hsym : EdgeSym store) : EdgeSym (store ++ [(k, t)]) := by
  intro p hp q hq
  rcases List.mem_append.mp hp with hp1 | hp1 <;>
    rcases List.mem_append.mp hq with hq1 | hq1
  · exact hsym p hp1 q hq1
  · have hq2 : q = (k, t) := by simpa using hq1
    subst hq2
    simp [hbb, (hout p hp1).1]
  · have hp2 : p = (k, t) := by simpa using hp1
    subst hp2
    simp [hbl, (hout q hq1).2]
  · have hp2 : p = (k, t) := by simpa using hp1
    have hq2 : q = (k, t) := by simpa using hq1
    subst hp2
    subst hq2
    simp [hbl, hbb]

/-- A successful `create_task` preserves edge symmetry: the new file has
empty edge lists and its fresh id is referenced by no existing file. -/
theorem create_task_edgeSym {store : TaskStore} {teamExists : Bool}
    {subject description active_form : String}
    {metadata : Option (List (String × String))}
    {st' : TaskStore} {t' : TaskFile}
    (hvs : ∀ k ∈ storeKeys store, validStem k = true)
    (hdang : NoDangling store) (hsym : EdgeSym store)
    (h : create_task store teamExists subject description active_form
      metadata = .ok (st', t')) :
    EdgeSym st' := by
  rw [create_task] at h
  split at h
  · cases h
  · split at h
    · cases h
    · injection h with h6
      have hst' := congrArg Prod.fst h6
      simp only at hst'
      subst hst'
      rw [writeTask_append_of_not_mem (next_task_id_fresh hvs)]
      refine edgeSym_append_isolated rfl rfl ?_ hsym
      intro p hp
      constructor
      · intro hc
        exact next_task_id_fresh hvs ((hdang p hp).1 _ hc)
      · intro hc
        exact next_task_id_fresh hvs ((hdang p hp).2 _ hc)

theorem resetTaskOwner_blocks (t : TaskFile) :
    (resetTaskOwner t).blocks = t.blocks := by
  rw [resetTaskOwner]
  split <;> rfl

theorem resetTaskOwner_blockedBy (t : TaskFile) :
    (resetTaskOwner t).blocked_by = t.blocked_by := by
  rw [resetTaskOwner]
  split <;> rfl

theorem resetEntry_fst (agent : String) (p : String × TaskFile) :
    (resetEntry agent p).fst = p.fst := by
  rw [resetEntry]
  split <;> rfl

theorem resetEntry_blocks (agent : String) (p : String × TaskFile) :
    ((resetEntry agent p).snd).blocks = (p.snd).blocks := by
  rw [resetEntry]
  split
  · exact resetTaskOwner_blocks _
  · rfl

theorem resetEntry_blockedBy (agent : String) (p : String × TaskFile) :
    ((resetEntry agent p).snd).blocked_by = (p.snd).blocked_by := by
  rw [resetEntry]
  split
  · exact resetTaskOwner_blockedBy _
  · rfl

/-- `reset_owner_tasks` preserves edge symmetry: it only touches owners
and statuses. -/
theorem reset_owner_tasks_edgeSym {store : TaskStore} (agentName : String)
    (hnd : (storeKeys store).Nodup) (hsym : EdgeSym store) :
    EdgeSym (reset_owner_tasks store agentName) := by
  rw [reset_owner_tasks_map agentName store hnd]
  intro p hp q hq
  obtain ⟨p0, hp0, hp1⟩ := List.mem_map.mp hp
  obtain ⟨q0, hq0, hq1⟩ := List.mem_map.mp hq
  subst hp1
  subst hq1
  rw [resetEntry_fst, resetEntry_fst, resetEntry_blocks, resetEntry_blockedBy]
  exact hsym p0 hp0 q0 hq0

/-- C3 (corrected): on a well-formed directory (unique numeric stems, no
dangling edge references), edge symmetry — `B ∈ A.blocks ⇔ A ∈
B.blocked_by` for every pair of stored files — is preserved by every
successful `create_task`, by `reset_owner_tasks`, and by every
successful `update_task` whose requested status is NOT `"completed"`
(deletion included).  Completing updates are excluded: completion strips
the completed id from the other files' `blocked_by` lists while leaving
the completed file's own `blocks` list in place, which breaks the
invariant (see the counterexample). -/
theorem task_store_edge_symmetry
    (store : TaskStore)
    (hnd : (storeKeys store).Nodup)
    (hvs : ∀ k ∈ storeKeys store, validStem k = true)
    (hdang : NoDangling store)
    (hsym : EdgeSym store) :
    (∀ (teamExists : Bool) (subject description active_form : String)
        (metadata : Option (List (String × String)))
        (st' : TaskStore) (t' : TaskFile),
        create_task store teamExists subject description active_form metadata
          = .ok (st', t') → EdgeSym st') ∧
    (∀ (taskId : String)
        (status owner subject description active_form : Option String)
        (addBlocks addBlockedBy : List String)
        (metadata : Option (List (String × Option String)))
        (st' : TaskStore) (t' : TaskFile), status ≠ some "completed" →
        update_task store taskId status owner subject description active_form
          addBlocks addBlockedBy metadata = .ok (st', t') → EdgeSym st') ∧
    (∀ agentName : String, EdgeSym (reset_owner_tasks store agentName)) :=
  ⟨fun _ _ _ _ _ _ _ h => create_task_edgeSym hvs hdang hsym h,
   fun _ _ _ _ _ _ _ _ _ _ _ hs h => update_task_edgeSym hnd hsym hs h,
   fun agentName => reset_owner_tasks_edgeSym agentName hnd hsym⟩

/-- C3 witness: the two-task symmetric store satisfies every hypothesis
of the invariant theorem, which then yields symmetry after a reset. -/
theorem task_store_edge_symmetry_witness :
    (storeKeys c3Store).Nodup ∧
    EdgeSym (reset_owner_tasks c3Store "alice") :=
  ⟨by decide,
   (task_store_edge_symmetry c3Store (by decide) (by decide) (by decide)
      (by decide)).2.2 "alice"⟩

/-! ### Completeness of the cycle-detecting BFS (C2) -/

/-- Reachability in exactly `n` steps along the BFS successor relation
(on-disk `blocked_by` chains plus pending edges). -/
def ReachN (store : TaskStore) (pend : PendMap) : Nat → String → String → Prop
  | 0, u, v => u = v
  | n + 1, u, v => ∃ w ∈ bfsNbrs store pend u, ReachN store pend n w v

instance reachNDecidable (store : TaskStore) (pend : PendMap) :
    ∀ (n : Nat) (u v : String), Decidable (ReachN store pend n u v)
  | 0, u, v => inferInstanceAs (Decidable (u = v))
  | n + 1, u, v =>
    haveI : ∀ w, Decidable (ReachN store pend n w v) :=
      fun w => reachNDecidable store pend n w v
    inferInstanceAs
      (Decidable (∃ w ∈ bfsNbrs store pend u, ReachN store pend n w v))

/-- Every BFS successor belongs to the node universe used as the fuel
bound. -/
theorem bfsNbrs_subset_univ {store : TaskStore} {pend : PendMap}
    {toId u w : String} (hw : w ∈ bfsNbrs store pend u) :
    w ∈ nodeUniv store pend toId := by
  rw [nodeUniv, Finset.mem_insert]
  right
  rw [List.mem_toFinset, List.mem_append]
  rw [bfsNbrs] at hw
  rcases List.mem_append.mp hw with h1 | h1
  · left
    cases hf : findTask store u with
    | none =>
      rw [hf] at h1
      cases h1
    | some t =>
      rw [hf] at h1
      exact List.mem_flatten.mpr
        ⟨t.blocked_by, List.mem_map.mpr ⟨(u, t), findTask_mem hf, rfl⟩, h1⟩
  · right
    rw [pendGet] at h1
    cases hf : pend.find? (fun p => p.fst == u) with
    | none =>
      rw [hf] at h1
      cases h1
    | some pr =>
      rw [hf] at h1
      exact List.mem_flatten.mpr
        ⟨pr.snd, List.mem_map.mpr ⟨pr, List.mem_of_find?_eq_some hf, rfl⟩,
          by simpa using h1⟩

/-- A node of the search frontier closure that reaches the target yields
a queue element that reaches the target: paths cannot hide inside the
visited set, because successors of visited nodes stay in the closure. -/
theorem bfs_escape (store : TaskStore) (pend : PendMap) (fromId : String) :
    ∀ (n : Nat) (visited queue : List String) (u : String),
      (∀ v ∈ visited, ∀ w ∈ bfsNbrs store pend v, w ∈ visited ∨ w ∈ queue) →
      fromId ∉ visited →
      (u ∈ visited ∨ u ∈ queue) → ReachN store pend n u fromId →
      ∃ q ∈ queue, ∃ m, ReachN store pend m q fromId := by
  intro n
  induction n using Nat.strong_induction_on with
  | _ n ih =>
    intro visited queue u hcl hnf hu hp
    rcases hu with hv | hq
    · cases n with
      | zero =>
        have hp2 : u = fromId := hp
        exact absurd (hp2 ▸ hv) hnf
      | succ m =>
        obtain ⟨w, hw, hp2⟩ := hp
        rcases hcl u hv w hw with h1 | h1
        · exact ih m (Nat.lt_succ_self m) visited queue w hcl hnf (Or.inl h1) hp2
        · exact ⟨w, h1, m, hp2⟩
    · exact ⟨u, hq, n, hp⟩

/-- Completeness of the while-loop of `_would_create_cycle`: if some
queue element reaches `from_id` then the loop, given fuel at least the
potential of the state (remaining node weights plus queue length),
returns `True`. -/
theorem bfsCycle_complete (store : TaskStore) (pend : PendMap)
    (fromId toId : String) :
    ∀ (fuel : Nat) (visited queue : List String),
      (∀ v ∈ visited, ∀ w ∈ bfsNbrs store pend v, w ∈ visited ∨ w ∈ queue) →
      fromId ∉ visited →
      (∀ q ∈ queue, q ∈ nodeUniv store pend toId) →
      (∃ q ∈ queue, ∃ n, ReachN store pend n q fromId) →
      ((nodeUniv store pend toId).filter
          (fun u => u ∉ visited)).sum (nodeWeight store pend) +
        queue.length ≤ fuel →
      bfsCycle store pend fromId fuel visited queue = true := by
  intro fuel
  induction fuel with
  | zero =>
    intro visited queue _ _ _ hwit hmeas
    obtain ⟨q, hq, _⟩ := hwit
    have hlen : queue.length = 0 :=
      Nat.le_zero.mp (Nat.le_trans (Nat.le_add_left _ _) hmeas)
    rw [List.length_eq_zero.mp hlen] at hq
    cases hq
  | succ fuel ih =>
    intro visited queue hcl hnf hqU hwit hmeas
    cases queue with
    | nil =>
      obtain ⟨q, hq, _⟩ := hwit
      cases hq
    | cons cur rest =>
      simp only [bfsCycle]
      by_cases hcf : cur = fromId
      · rw [if_pos hcf]
      · rw [if_neg hcf]
        by_cases hcv : cur ∈ visited
        · rw [if_pos hcv]
          have hcl2 : ∀ v ∈ visited, ∀ w ∈ bfsNbrs store pend v,
              w ∈ visited ∨ w ∈ rest := by
            intro v hv w hw
            rcases hcl v hv w hw with h1 | h1
            · exact Or.inl h1
            · rcases List.mem_cons.mp h1 with h2 | h2
              · exact Or.inl (h2 ▸ hcv)
              · exact Or.inr h2
          refine ih visited rest hcl2 hnf
            (fun q hq => hqU q (List.mem_cons_of_mem _ hq)) ?_ ?_
          · obtain ⟨q, hq, nn, hp⟩ := hwit
            rcases List.mem_cons.mp hq with h2 | h2
            · exact bfs_escape store pend fromId nn visited rest q hcl2 hnf
                (Or.inl (h2 ▸ hcv)) hp
            · exact ⟨q, h2, nn, hp⟩
          · rw [List.length_cons] at hmeas
            omega
        · rw [if_neg hcv]
          have hcurU : cur ∈ nodeUniv store pend toId :=
            hqU cur (List.mem_cons_self _ _)
          have hcl2 : ∀ v ∈ cur :: visited, ∀ w ∈ bfsNbrs store pend v,
              w ∈ cur :: visited ∨
                w ∈ rest ++ (bfsNbrs store pend cur).filter
                  (fun d => !decide (d ∈ cur :: visited)) := by
            intro v hv w hw
            rcases List.mem_cons.mp hv with h2 | h2
            · rw [h2] at hw
              by_cases hwv : w ∈ cur :: visited
              · exact Or.inl hwv
              · refine Or.inr (List.mem_append_right _ ?_)
                refine List.mem_filter.mpr ⟨hw, ?_⟩
                simp [hwv]
            · rcases hcl v h2 w hw with h3 | h3
              · exact Or.inl (List.mem_cons_of_mem _ h3)
              · rcases List.mem_cons.mp h3 with h4 | h4
                · exact Or.inl (by rw [h4]; exact List.mem_cons_self _ _)
                · exact Or.inr (List.mem_append_left _ h4)
          have hnf2 : fromId ∉ cur :: visited := by
            intro hc
            rcases List.mem_cons.mp hc with h2 | h2
            · exact hcf h2.symm
            · exact hnf h2
          refine ih (cur :: visited) _ hcl2 hnf2 ?_ ?_ ?_
          · intro q hq
            rcases List.mem_append.mp hq with h2 | h2
            · exact hqU q (List.mem_cons_of_mem _ h2)
            · exact bfsNbrs_subset_univ (List.mem_of_mem_filter h2)
          · obtain ⟨q, hq, nn, hp⟩ := hwit
            rcases List.mem_cons.mp hq with h2 | h2
            · rw [h2] at hp
              cases nn with
              | zero =>
                have hp2 : cur = fromId := hp
                exact absurd hp2 hcf
              | succ m =>
                obtain ⟨w, hw, hp2⟩ := hp
                exact bfs_escape store pend fromId m (cur :: visited) _ w hcl2
                  hnf2 (hcl2 cur (List.mem_cons_self _ _) w hw) hp2
            · exact ⟨q, List.mem_append_left _ h2, nn, hp⟩
          · have hsub : (nodeUniv store pend toId).filter
                (fun u => u ∉ cur :: visited) =
                ((nodeUniv store pend toId).filter
                  (fun u => u ∉ visited)).erase cur := by
              ext x
              simp only [Finset.mem_filter, Finset.mem_erase, List.mem_cons]
              constructor
              · rintro ⟨hx1, hx2⟩
                push_neg at hx2
                exact ⟨hx2.1, hx1, hx2.2⟩
              · rintro ⟨hx1, hx2, hx3⟩
                refine ⟨hx2, ?_⟩
                rintro (h | h)
                · exact hx1 h
                · exact hx3 h
            have hcurA : cur ∈ (nodeUniv store pend toId).filter
                (fun u => u ∉ visited) := Finset.mem_filter.mpr ⟨hcurU, hcv⟩
            have hsum : nodeWeight store pend cur +
                (((nodeUniv store pend toId).filter
                  (fun u => u ∉ visited)).erase cur).sum (nodeWeight store pend) =
                ((nodeUniv store pend toId).filter
                  (fun u => u ∉ visited)).sum (nodeWeight store pend) :=
              Finset.add_sum_erase _ (nodeWeight store pend) hcurA
            have hwdef : nodeWeight store pend cur =
                1 + (bfsNbrs store pend cur).length := rfl
            have hflt : ((bfsNbrs store pend cur).filter
                (fun d => !decide (d ∈ cur :: visited))).length ≤
                (bfsNbrs store pend cur).length := List.length_filter_le _ _
            rw [List.length_cons] at hmeas
            rw [hsub, List.length_append]
            omega

/-- `_would_create_cycle` is complete: if `to_id` reaches `from_id`
through `blocked_by` chains (disk + pending), the BFS reports the
cycle. -/
theorem wouldCreateCycle_complete {store : TaskStore} {pend : PendMap}
    {fromId toId : String} (h : ∃ n, ReachN store pend n toId fromId) :
    wouldCreateCycle store fromId toId pend = true := by
  obtain ⟨n, hp⟩ := h
  rw [wouldCreateCycle, bfsFuel]
  refine bfsCycle_complete store pend fromId toId _ [] [toId]
    (fun v hv => absurd hv (List.not_mem_nil v)) (List.not_mem_nil fromId)
    ?_ ⟨toId, List.mem_cons_self _ _, n, hp⟩ ?_
  · intro q hq
    rcases List.mem_cons.mp hq with h2 | h2
    · rw [h2, nodeUniv]
      exact Finset.mem_insert_self _ _
    · cases h2
  · have hfil : (nodeUniv store pend toId).filter
        (fun u => u ∉ ([] : List String)) = nodeUniv store pend toId :=
      Finset.filter_true_of_mem (fun x _ => List.not_mem_nil x)
    rw [hfil, List.length_cons, List.length_nil]

theorem checkNoCyclesBlocks_err_of_cycle {store : TaskStore} {taskId : String}
    {pend : PendMap} :
    ∀ {l : List String} {b : String}, b ∈ l →
      wouldCreateCycle store b taskId pend = true →
      ∃ b2, checkNoCyclesBlocks store taskId pend l =
        .error (.cycleBlock taskId b2) := by
  intro l
  induction l with
  | nil =>
    intro b hb _
    cases hb
  | cons a rest ih =>
    intro b hb hw
    rw [checkNoCyclesBlocks]
    by_cases ha : wouldCreateCycle store a taskId pend = true
    · rw [if_pos ha]
      exact ⟨a, rfl⟩
    · rw [if_neg ha]
      rcases List.mem_cons.mp hb with h2 | h2
      · rw [h2] at hw
        exact absurd hw ha
      · exact ih h2 hw

theorem checkNoCyclesBlockedBy_err_of_cycle {store : TaskStore}
    {taskId : String} {pend : PendMap} :
    ∀ {l : List String} {b : String}, b ∈ l →
      wouldCreateCycle store taskId b pend = true →
      ∃ b2, checkNoCyclesBlockedBy store taskId pend l =
        .error (.cycleBlockedBy taskId b2) := by
  intro l
  induction l with
  | nil =>
    intro b hb _
    cases hb
  | cons a rest ih =>
    intro b hb hw
    rw [checkNoCyclesBlockedBy]
    by_cases ha : wouldCreateCycle store taskId a pend = true
    · rw [if_pos ha]
      exact ⟨a, rfl⟩
    · rw [if_neg ha]
      rcases List.mem_cons.mp hb with h2 | h2
      · rw [h2] at hw
        exact absurd hw ha
      · exact ih h2 hw

/-- If some proposed edge closes a `blocked_by` cycle, `_check_no_cycles`
raises a circular-dependency error. -/
theorem checkNoCycles_err_of_cycle {store : TaskStore} {taskId : String}
    {addBlocks addBlockedBy : List String} {pend : PendMap}
    (hcyc : (∃ b ∈ addBlocks, ∃ n, ReachN store pend n taskId b) ∨
            (∃ b ∈ addBlockedBy, ∃ n, ReachN store pend n b taskId)) :
    ∃ e, checkNoCycles store taskId addBlocks addBlockedBy pend = .error e ∧
      ((∃ b, e = UErr.cycleBlock taskId b) ∨
       (∃ b, e = UErr.cycleBlockedBy taskId b)) := by
  rcases hcyc with ⟨b, hb, hreach⟩ | ⟨b, hb, hreach⟩
  · obtain ⟨b2, hE⟩ :=
      checkNoCyclesBlocks_err_of_cycle hb (wouldCreateCycle_complete hreach)
    rw [checkNoCycles, hE]
    exact ⟨_, rfl, Or.inl ⟨b2, rfl⟩⟩
  · cases hblocks : checkNoCyclesBlocks store taskId pend addBlocks with
    | error e =>
      rw [checkNoCycles, hblocks]
      obtain ⟨b2, he⟩ := checkNoCyclesBlocks_err_shape hblocks
      exact ⟨e, rfl, Or.inl ⟨b2, he⟩⟩
    | ok u =>
      obtain ⟨b2, hE⟩ :=
        checkNoCyclesBlockedBy_err_of_cycle hb (wouldCreateCycle_complete hreach)
      rw [checkNoCycles, hblocks, hE]
      exact ⟨_, rfl, Or.inr ⟨b2, rfl⟩⟩

/-- C2 (corrected): for every `update_task` call that reaches the cycle
check — the task file exists and `_build_pending_edges` accepted every
proposed edge target (no self-edges, no missing references) — if some
proposed edge would close a cycle in the `blocked_by` graph over on-disk
edges plus all edges proposed in the same call (an edge `task ->
b ∈ add_blocks` such that `task` already reaches `b`, or an edge
`b -> task` for `b ∈ add_blocked_by` such that `b` already reaches
`task`), then the call raises a circular-dependency error
(`cycleBlock`/`cycleBlockedBy`); the error propagates before any write,
so the embedded store is untouched.  The original claim is corrected
because edge-reference validation runs first: a call whose proposed
edges also contain a self-reference or a missing target raises that
validation error instead of the circular-dependency error (see the
counterexample). -/
theorem update_task_cycle_reject
    (store : TaskStore) (taskId : String)
    (status owner subject description active_form : Option String)
    (addBlocks addBlockedBy : List String)
    (metadata : Option (List (String × Option String)))
    (task : TaskFile) (pend : PendMap)
    (hex : findTask store taskId = some task)
    (hbp : buildPendingEdges store taskId addBlocks addBlockedBy = .ok pend)
    (hcyc : (∃ b ∈ addBlocks, ∃ n, ReachN store pend n taskId b) ∨
            (∃ b ∈ addBlockedBy, ∃ n, ReachN store pend n b taskId)) :
    ∃ e, update_task store taskId status owner subject description
        active_form addBlocks addBlockedBy metadata = .error e ∧
      ((∃ b, e = UErr.cycleBlock taskId b) ∨
       (∃ b, e = UErr.cycleBlockedBy taskId b)) := by
  obtain ⟨e, hcc, hshape⟩ := checkNoCycles_err_of_cycle hcyc
  refine ⟨e, ?_, hshape⟩
  rw [update_task, hex]
  have hbody : exBind (buildPendingEdges store taskId addBlocks addBlockedBy)
      (fun pend2 =>
        exBind (checkNoCycles store taskId addBlocks addBlockedBy pend2) fun _ =>
        exBind (statusGate store task status addBlockedBy) fun _ =>
        updApply store taskId task status owner subject description active_form
          addBlocks addBlockedBy metadata) = .error e := by
    rw [hbp]
    simp only [exBind_ok]
    rw [hcc, exBind_err]
  exact hbody

def c2Task1 : TaskFile :=
  { id := "1", subject := "s", description := "", active_form := "",
    status := "pending", blocks := [], blocked_by := ["2"], owner := none,
    metadata := none }

def c2Task2 : TaskFile :=
  { id := "2", subject := "s", description := "", active_form := "",
    status := "pending", blocks := ["1"], blocked_by := [], owner := none,
    metadata := none }

def c2Store : TaskStore := [("1", c2Task1), ("2", c2Task2)]

/-- The pending-edge map the call of the counterexample proposes:
`add_blocked_by=["1","7"]` on task `2`. -/
def c2Pend : PendMap := [("2", ["1", "7"])]

/-- C2 counterexample: task `1` is blocked by task `2` on disk, and the
call asks to make task `2` blocked by tasks `1` and `7`.  The proposed
edge `2 blocked_by 1` closes a cycle — `1` reaches `2` in one step in
the graph of on-disk plus proposed edges — yet the call raises the
missing-reference error for `7`, not a circular-dependency error,
because `_validate_edge_refs` runs before `_check_no_cycles`. -/
theorem update_cycle_masked_by_missing_ref :
    ReachN c2Store c2Pend 1 "1" "2" ∧
    update_task c2Store "2" none none none none none [] ["1", "7"] none =
      .error (.missingRef "7") ∧
    (∀ b, UErr.missingRef "7" ≠ UErr.cycleBlock "2" b) ∧
    (∀ b, UErr.missingRef "7" ≠ UErr.cycleBlockedBy "2" b) :=
  ⟨by decide, by decide, fun b => by simp, fun b => by simp⟩

/-- The pending-edge map of the C2 witness call (`add_blocked_by=["1"]`
on task `2`). -/
def c2PendOk : PendMap := [("2", ["1"])]

/-- C2 witness: the same cycle-closing edge with only valid references
makes the call raise a circular-dependency error. -/
theorem update_task_cycle_reject_witness :
    findTask c2Store "2" = some c2Task2 ∧
    (∃ e, update_task c2Store "2" none none none none none [] ["1"] none =
        .error e ∧
      ((∃ b, e = UErr.cycleBlock "2" b) ∨
       (∃ b, e = UErr.cycleBlockedBy "2" b))) :=
  ⟨by decide,
   update_task_cycle_reject c2Store "2" none none none none none [] ["1"] none
     c2Task2 c2PendOk (by decide) (by decide)
     (Or.inr ⟨"1", by decide, 1, by decide⟩)⟩
